/-
Verification of the Dancing Links (DLX) exact-cover solver in
src/python/day12/simulator.py, via a shallow embedding.

The embedding mirrors the Python source:
  * Python lists are Lean lists; indexing goes through pyIdx, which
    resolves negative indices the way Python does and fails (IndexError)
    outside [-len, len).
  * Attribute mutation on an aliased object is modelled by re-reading the
    list entry at the object's position at every use, in source order.
  * Methods that can raise return Option (the exception discards the
    state seen by the caller of a constructor) or Except carrying the
    partially mutated matrix (add_row mutates in place before raising).
  * The unbounded while loops and recursion of the solver take a fuel
    parameter; all recursion is structural so terms evaluate by decide.
-/
import Mathlib

namespace DLX

/-- Python list index resolution: non-negative indices must be < len,
negative indices are offset by len; anything else is an IndexError. -/
def pyIdx (len : Nat) (i : Int) : Option Nat :=
  if 0 ≤ i then (if i < (len : Int) then some i.toNat else none)
  else (if (len : Int) + i < 0 then none else some ((len : Int) + i).toNat)

/-- `l[i]` with Python semantics. -/
def pyGet (l : List α) (d : α) (i : Int) : Option α :=
  (pyIdx l.length i).map (fun p => l.getD p d)

/-- `l[i].f = ...` (attribute mutation through an index) with Python
semantics. -/
def pyModify (l : List α) (d : α) (i : Int) (f : α → α) : Option (List α) :=
  (pyIdx l.length i).map (fun p => l.set p (f (l.getD p d)))

/-- Mirror of the Python `DLXNode` dataclass (all links default -1). -/
structure DLXNode where
  left : Int := -1
  right : Int := -1
  up : Int := -1
  down : Int := -1
  column : Int := -1
  row : Int := -1
deriving DecidableEq, Repr

instance : Inhabited DLXNode := ⟨{}⟩

/-- Mirror of the Python `DLXColumn` dataclass. -/
structure DLXColumn where
  size : Int := 0
  left : Int := -1
  right : Int := -1
  first : Int := -1
  name : Int := 0
deriving DecidableEq, Repr

instance : Inhabited DLXColumn := ⟨{}⟩

/-- Mirror of the Python `DancingLinksMatrix`: the node arena and the
column-header records. `header_idx` is 0 in the source and never read,
so it is not carried. -/
structure DancingLinksMatrix where
  num_columns : Nat
  nodes : List DLXNode
  columns : List DLXColumn
deriving DecidableEq, Repr

instance : Inhabited DancingLinksMatrix := ⟨⟨0, [], []⟩⟩

namespace DancingLinksMatrix

/-- `self.nodes[i]` (read). -/
def nget (m : DancingLinksMatrix) (i : Int) : Option DLXNode :=
  pyGet m.nodes default i

/-- `self.nodes[i].f = v` (attribute write through the arena). -/
def nmod (m : DancingLinksMatrix) (i : Int) (f : DLXNode → DLXNode) :
    Option DancingLinksMatrix :=
  (pyModify m.nodes default i f).map (fun ns => { m with nodes := ns })

/-- `self.columns[i]` (read). -/
def cget (m : DancingLinksMatrix) (i : Int) : Option DLXColumn :=
  pyGet m.columns default i

/-- `self.columns[i].f = v`. -/
def cmod (m : DancingLinksMatrix) (i : Int) (f : DLXColumn → DLXColumn) :
    Option DancingLinksMatrix :=
  (pyModify m.columns default i f).map (fun cs => { m with columns := cs })

end DancingLinksMatrix

/-- The arena and column records after the first loop of
`DancingLinksMatrix.__init__` (lines 82-89): the root node, one header
node per column (its `column` field is its own index), and one column
record per column. -/
def initMatrix (n : Nat) : DancingLinksMatrix :=
  { num_columns := n,
    nodes := ({} : DLXNode) ::
      (List.range n).map (fun (i : Nat) => { column := (i : Int) + 1, row := -1 }),
    columns := (List.range n).map (fun (i : Nat) => { name := (i : Int) }) }

/-- One iteration of the header-linking loop of `__init__`
(lines 92-101). -/
def createStep (n : Nat) (m : DancingLinksMatrix) (i : Nat) :
    Option DancingLinksMatrix := do
  let lf : Int := if 0 < i then ((i : Int) - 1) % (n : Int) + 1 else (n : Int)
  let rt : Int :=
    if (i : Int) < (n : Int) - 1 then ((i : Int) + 1) % (n : Int) + 1 else 1
  let nodeIdx : Int := (i : Int) + 1
  let m ← m.cmod (i : Int)
    (fun c => { c with left := lf, right := rt, first := nodeIdx })
  let m ← m.nmod nodeIdx
    (fun nd => { nd with left := lf, right := rt, up := nodeIdx, down := nodeIdx })
  pure m

/-- `DancingLinksMatrix.__init__(num_columns)` (simulator.py lines 75-107).
Returns none when the construction raises (it does for `num_columns = 0`:
line 106 accesses `self.nodes[1]`, which does not exist). -/
def create (n : Nat) : Option DancingLinksMatrix := do
  let m1 ← (List.range n).foldlM (createStep n) (initMatrix n)
  -- lines 104-107: link header to first and last columns
  let m2 ← m1.nmod 0 (fun nd => { nd with right := 1 })
  let m3 ← m2.nmod 0 (fun nd => { nd with left := (n : Int) })
  let m4 ← m3.nmod 1 (fun nd => { nd with left := 0 })
  let m5 ← m4.nmod (n : Int) (fun nd => { nd with right := 0 })
  pure m5

/-- Lift an Option-valued list operation into Except, recording the
matrix state at the moment the IndexError is raised (Python mutates in
place, so the caller observes the partial mutation). -/
def liftE (m : DancingLinksMatrix) : Option β → Except DancingLinksMatrix β
  | some b => Except.ok b
  | none => Except.error m

/-- One iteration of the `for col_idx in columns` loop of `add_row`
(simulator.py lines 122-148). The accumulator carries
`(first_node_idx, prev_node_idx)` when set. -/
def add_row_step (row_id : Int)
    (acc : DancingLinksMatrix × Option (Int × Int)) (col_idx : Int) :
    Except DancingLinksMatrix (DancingLinksMatrix × Option (Int × Int)) := do
  let (m, fp) := acc
  -- lines 123-126: create node and append it
  let node_idx : Int := m.nodes.length
  let m : DancingLinksMatrix :=
    { m with nodes := m.nodes ++ [{ column := col_idx + 1, row := row_id }] }
  let col_header_idx : Int := col_idx + 1
  -- line 130: col = self.columns[col_idx] (raises here if out of range)
  let _ ← liftE m (m.cget col_idx)
  -- line 133: last_in_col = self.nodes[col_header_idx].up
  let hn ← liftE m (m.nget col_header_idx)
  let last_in_col := hn.up
  -- lines 134-135: node.up = last_in_col; node.down = col_header_idx
  let m ← liftE m (m.nmod node_idx
    (fun nd => { nd with up := last_in_col, down := col_header_idx }))
  -- line 136: self.nodes[last_in_col].down = node_idx
  let m ← liftE m (m.nmod last_in_col (fun nd => { nd with down := node_idx }))
  -- line 137: self.nodes[col_header_idx].up = node_idx
  let m ← liftE m (m.nmod col_header_idx (fun nd => { nd with up := node_idx }))
  -- line 139: col.size += 1
  let m ← liftE m (m.cmod col_idx (fun c => { c with size := c.size + 1 }))
  -- lines 142-148: horizontal linking
  match fp with
  | none => pure (m, some (node_idx, node_idx))
  | some (first_node_idx, prev_node_idx) => do
      let m ← liftE m (m.nmod prev_node_idx (fun nd => { nd with right := node_idx }))
      let m ← liftE m (m.nmod node_idx (fun nd => { nd with left := prev_node_idx }))
      pure (m, some (first_node_idx, node_idx))

/-- `DancingLinksMatrix.add_row(row_id, columns)` (simulator.py lines
109-153). An uncaught IndexError is `Except.error` carrying the matrix as
mutated so far. -/
def add_row (m : DancingLinksMatrix) (row_id : Int) (columns : List Int) :
    Except DancingLinksMatrix DancingLinksMatrix := do
  -- lines 116-117: if not columns: return
  if columns.isEmpty then return m
  let (m, fp) ← columns.foldlM (add_row_step row_id) (m, none)
  -- lines 151-153: complete horizontal cycle
  match fp with
  | some (first_node_idx, prev_node_idx) => do
      let m ← liftE m (m.nmod prev_node_idx (fun nd => { nd with right := first_node_idx }))
      let m ← liftE m (m.nmod first_node_idx (fun nd => { nd with left := prev_node_idx }))
      pure m
  | none => pure m

/-- Mirror of the `DLXSolver` state (trace printing is omitted; it does
not touch solver state). -/
structure DLXSolver where
  matrix : DancingLinksMatrix
  solution : List Int
  solutions : List (List Int)
  operations : Nat
deriving DecidableEq, Repr

/-- `DLXSolver.__init__` (lines 180-185). -/
def mkSolver (m : DancingLinksMatrix) : DLXSolver := ⟨m, [], [], 0⟩

/-- Body of the inner loop of `cover` (lines 216-224): vertically unlink
the node at `node_idx` and decrement its column's size. Each attribute
access re-reads the arena, as Python's object aliasing does. -/
def unlinkStep (m : DancingLinksMatrix) (node_idx : Int) :
    Option DancingLinksMatrix := do
  let nd1 ← m.nget node_idx
  let m ← m.nmod nd1.up (fun x => { x with down := nd1.down })
  let nd2 ← m.nget node_idx
  let m ← m.nmod nd2.down (fun x => { x with up := nd2.up })
  let nd3 ← m.nget node_idx
  let m ← m.cmod (nd3.column - 1) (fun c => { c with size := c.size - 1 })
  pure m

/-- Body of the inner loop of `uncover` (lines 251-259): re-link the node
at `node_idx` and increment its column's size. -/
def relinkStep (m : DancingLinksMatrix) (node_idx : Int) :
    Option DancingLinksMatrix := do
  let nd1 ← m.nget node_idx
  let m ← m.nmod nd1.up (fun x => { x with down := node_idx })
  let nd2 ← m.nget node_idx
  let m ← m.nmod nd2.down (fun x => { x with up := node_idx })
  let nd3 ← m.nget node_idx
  let m ← m.cmod (nd3.column - 1) (fun c => { c with size := c.size + 1 })
  pure m

/-- Inner `while node_idx != row_node_idx` loop of `cover`
(lines 214-224), also counting `self.operations` (line 223). -/
def coverInner : Nat → DancingLinksMatrix → Nat → Int → Int →
    Option (DancingLinksMatrix × Nat)
  | 0, _, _, _, _ => none
  | fuel + 1, m, ops, row_node_idx, node_idx =>
    if node_idx = row_node_idx then some (m, ops)
    else do
      let m ← unlinkStep m node_idx
      let nd4 ← m.nget node_idx
      coverInner fuel m (ops + 1) row_node_idx nd4.right

/-- Outer `while row_node_idx != col_node_idx` loop of `cover`
(lines 209-226). -/
def coverOuter : Nat → DancingLinksMatrix → Nat → Int → Int →
    Option (DancingLinksMatrix × Nat)
  | 0, _, _, _, _ => none
  | fuel + 1, m, ops, col_node_idx, row_node_idx =>
    if row_node_idx = col_node_idx then some (m, ops)
    else do
      let rn ← m.nget row_node_idx
      let (m, ops) ← coverInner fuel m ops row_node_idx rn.right
      let rn2 ← m.nget row_node_idx
      coverOuter fuel m ops col_node_idx rn2.down

/-- Lines 202-203 of `cover`: unlink the column header from the
horizontal header list. -/
def hdrUnlink (m : DancingLinksMatrix) (col_node_idx : Int) :
    Option DancingLinksMatrix := do
  let cn1 ← m.nget col_node_idx
  let m ← m.nmod cn1.left (fun x => { x with right := cn1.right })
  let cn2 ← m.nget col_node_idx
  let m ← m.nmod cn2.right (fun x => { x with left := cn2.left })
  pure m

/-- Lines 264-265 of `uncover`: re-link the column header into the
horizontal header list. -/
def hdrRelink (m : DancingLinksMatrix) (col_node_idx : Int) :
    Option DancingLinksMatrix := do
  let cn2 ← m.nget col_node_idx
  let m ← m.nmod cn2.left (fun x => { x with right := col_node_idx })
  let cn3 ← m.nget col_node_idx
  let m ← m.nmod cn3.right (fun x => { x with left := col_node_idx })
  pure m

/-- Inner loop of `uncover` (lines 249-259). -/
def uncoverInner : Nat → DancingLinksMatrix → Nat → Int → Int →
    Option (DancingLinksMatrix × Nat)
  | 0, _, _, _, _ => none
  | fuel + 1, m, ops, row_node_idx, node_idx =>
    if node_idx = row_node_idx then some (m, ops)
    else do
      let m ← relinkStep m node_idx
      let nd4 ← m.nget node_idx
      uncoverInner fuel m (ops + 1) row_node_idx nd4.left

/-- Outer loop of `uncover` (lines 244-261). -/
def uncoverOuter : Nat → DancingLinksMatrix → Nat → Int → Int →
    Option (DancingLinksMatrix × Nat)
  | 0, _, _, _, _ => none
  | fuel + 1, m, ops, col_node_idx, row_node_idx =>
    if row_node_idx = col_node_idx then some (m, ops)
    else do
      let rn ← m.nget row_node_idx
      let (m, ops) ← uncoverInner fuel m ops row_node_idx rn.left
      let rn2 ← m.nget row_node_idx
      uncoverOuter fuel m ops col_node_idx rn2.up

/-- `DLXSolver.cover(col_idx)` (lines 187-226). -/
def DLXSolver.cover (fuel : Nat) (s : DLXSolver) (col_idx : Int) :
    Option DLXSolver := do
  let ops := s.operations + 1                     -- line 194
  let m := s.matrix
  let _ ← m.cget col_idx                          -- line 197
  let col_node_idx : Int := col_idx + 1           -- line 198
  let _ ← m.nget col_node_idx                     -- line 199
  let m ← hdrUnlink m col_node_idx                -- lines 202-203
  let cn3 ← m.nget col_node_idx
  let (m, ops) ← coverOuter fuel m ops col_node_idx cn3.down
  pure { s with matrix := m, operations := ops }

/-- `DLXSolver.uncover(col_idx)` (lines 228-265). -/
def DLXSolver.uncover (fuel : Nat) (s : DLXSolver) (col_idx : Int) :
    Option DLXSolver := do
  let ops := s.operations + 1                     -- line 234
  let m := s.matrix
  let _ ← m.cget col_idx                          -- line 236
  let col_node_idx : Int := col_idx + 1           -- line 237
  let cn1 ← m.nget col_node_idx                   -- line 238
  let (m, ops) ← uncoverOuter fuel m ops col_node_idx cn1.up
  let m ← hdrRelink m col_node_idx                -- lines 264-265
  pure { s with matrix := m, operations := ops }

/-- Strict comparison against the running minimum, which starts at
`float('inf')` (modelled by none). -/
def ltMin (sz : Int) : Option Int → Bool
  | none => true
  | some v => sz < v

/-- Loop of `choose_column` (lines 283-291). -/
def chooseLoop : Nat → DancingLinksMatrix → Int → Option Int → Option Int →
    Option (Option Int)
  | 0, _, _, _, _ => none
  | fuel + 1, m, col_node_idx, min_size, best_col =>
    if col_node_idx = 0 then some best_col
    else do
      let col_idx : Int := col_node_idx - 1
      let (min_size, best_col) ←
        if col_idx < (m.columns.length : Int) then do
          let col ← m.cget col_idx
          if ltMin col.size min_size then pure (some col.size, some col_idx)
          else pure (min_size, best_col)
        else pure (min_size, best_col)
      let cn ← m.nget col_node_idx
      chooseLoop fuel m cn.right min_size best_col

/-- `DLXSolver.choose_column` (lines 267-293); the `operations`
increment is accounted at the call site. -/
def choose_column (fuel : Nat) (m : DancingLinksMatrix) :
    Option (Option Int) := do
  let header ← m.nget 0
  if header.right = 0 then some none
  else chooseLoop fuel m header.right none none

/-- Inner loop of `search` covering the other columns of a row
(lines 345-349). -/
def coverRowLoop : Nat → DLXSolver → Int → Int → Option DLXSolver
  | 0, _, _, _ => none
  | fuel + 1, s, row_node_idx, node_idx =>
    if node_idx = row_node_idx then some s
    else do
      let nd ← s.matrix.nget node_idx
      let s ← s.cover fuel (nd.column - 1)
      let nd2 ← s.matrix.nget node_idx
      coverRowLoop fuel s row_node_idx nd2.right

/-- Backtracking loop of `search` uncovering a row's columns in reverse
(lines 359-363). -/
def uncoverRowLoop : Nat → DLXSolver → Int → Int → Option DLXSolver
  | 0, _, _, _ => none
  | fuel + 1, s, row_node_idx, node_idx =>
    if node_idx = row_node_idx then some s
    else do
      let nd ← s.matrix.nget node_idx
      let s ← s.uncover fuel (nd.column - 1)
      let nd2 ← s.matrix.nget node_idx
      uncoverRowLoop fuel s row_node_idx nd2.left

/-- The two mutually recursive phases of `search`: the body of the
function (main) and its `while row_node_idx != col_node_idx` row loop. -/
inductive SCall where
  | main (depth : Nat) (find_all : Bool)
  | rows (depth : Nat) (find_all : Bool) (col_node_idx : Int)
      (row_node_idx : Int) (found : Bool)

/-- `DLXSolver.search` (lines 295-368), merged with its row loop into a
single fuel recursion. Returns the solver state and the Bool result. -/
def searchGo : Nat → DLXSolver → SCall → Option (DLXSolver × Bool)
  | 0, _, _ => none
  | fuel + 1, s, SCall.main depth find_all => do
    let header ← s.matrix.nget 0                  -- line 311
    if header.right = 0 then                      -- line 314
      some ({ s with solutions := s.solutions ++ [s.solution] }, true)
    else do
      let s := { s with operations := s.operations + 1 }  -- line 274
      let copt ← choose_column fuel s.matrix      -- line 321
      match copt with
      | none => some (s, false)                   -- line 322-323
      | some col_idx => do
        let col ← s.matrix.cget col_idx
        if col.size = 0 then some (s, false)      -- dead end
        else do
          let s ← s.cover fuel col_idx            -- line 328
          let col_node_idx : Int := col_idx + 1
          let cn ← s.matrix.nget col_node_idx     -- line 332
          searchGo fuel s (SCall.rows depth find_all col_node_idx cn.down false)
  | fuel + 1, s, SCall.rows depth find_all col_node_idx row_node_idx found =>
    if row_node_idx = col_node_idx then do
      let s ← s.uncover fuel (col_node_idx - 1)   -- line 367
      some (s, found)
    else do
      let rn ← s.matrix.nget row_node_idx         -- line 336
      let row_id := rn.row                        -- line 337
      let s := { s with solution := s.solution ++ [row_id] }  -- line 339
      let rn1 ← s.matrix.nget row_node_idx        -- line 345
      let s ← coverRowLoop fuel s row_node_idx rn1.right
      let (s, res) ← searchGo fuel s (SCall.main (depth + 1) find_all)
      if res && !find_all then some (s, true)     -- lines 352-355: early return
      else do
        let found := found || res
        let s := { s with solution := s.solution.dropLast }  -- line 358
        let rn2 ← s.matrix.nget row_node_idx      -- line 359
        let s ← uncoverRowLoop fuel s row_node_idx rn2.left
        let rn3 ← s.matrix.nget row_node_idx      -- line 365
        searchGo fuel s (SCall.rows depth find_all col_node_idx rn3.down found)

/-- `DLXSolver.search(depth, find_all)` entry point. -/
def search (fuel : Nat) (s : DLXSolver) (depth : Nat) (find_all : Bool) :
    Option (DLXSolver × Bool) :=
  searchGo fuel s (SCall.main depth find_all)

/-- `DLXSolver.solve(find_all)` (lines 370-376): reset accumulators, run
the search, return the final solver state and `self.solutions`. -/
def solve (fuel : Nat) (s : DLXSolver) (find_all : Bool) :
    Option (DLXSolver × List (List Int)) := do
  let s := { s with solutions := [], solution := [], operations := 0 }
  let (s, _) ← search fuel s 0 find_all
  pure (s, s.solutions)

/-- Size of column `j` (by list position). -/
def sizeAt (m : DancingLinksMatrix) (j : Nat) : Int :=
  (m.columns.getD j default).size

/-- The column position a Python index resolves to in a matrix with `n`
columns (negative indices count from the end). -/
def resolveCol (n : Nat) (c : Int) : Nat :=
  if c < 0 then ((n : Int) + c).toNat else c.toNat

/-- The per-column sizes of an `add_row` result (`none` when the call
raised). -/
def sizesOfE (e : Except DancingLinksMatrix DancingLinksMatrix) (n : Nat) :
    Option (List Int) :=
  match e with
  | Except.ok m => some ((List.range n).map (fun j => sizeAt m j))
  | Except.error _ => none

/-- Matrices reachable by construction: `create n` (with `n ≥ 1`, so the
constructor does not raise) followed by any sequence of `add_row` calls
whose column indices are all in Python range `[-n, n)`. -/
inductive Built : Nat → DancingLinksMatrix → Prop
  | base : ∀ n m, 1 ≤ n → create n = some m → Built n m
  | step : ∀ n m row_id cols m', Built n m →
      (∀ c ∈ cols, -(n : Int) ≤ c ∧ c < (n : Int)) →
      add_row m row_id cols = Except.ok m' → Built n m'

/- Concrete instances used by counterexamples and witnesses. -/

/-- One column, one row covering it: the minimal solvable instance. -/
def mat1 : DancingLinksMatrix :=
  ((create 1).bind (fun m => (add_row m 0 [0]).toOption)).getD default

/-- A freshly created two-column matrix. -/
def mat2 : DancingLinksMatrix := (create 2).getD default

/-- Two columns with one row covering both. -/
def mat2r : DancingLinksMatrix :=
  ((create 2).bind (fun m => (add_row m 0 [0, 1]).toOption)).getD default

/-- All `up` links of the arena stay in the Python-indexable range
`[-1, len)`; this is the only well-formedness fact `add_row` relies on
to not raise on in-range inputs. -/
def UpBound (m : DancingLinksMatrix) : Prop :=
  ∀ nd ∈ m.nodes, -1 ≤ nd.up ∧ nd.up < (m.nodes.length : Int)

/-- Construction invariant: column count, a header node per column plus
the root, and bounded `up` links. -/
def BInv (n : Nat) (m : DancingLinksMatrix) : Prop :=
  m.columns.length = n ∧ n + 1 ≤ m.nodes.length ∧ UpBound m

/-- Bounds on the `(first_node_idx, prev_node_idx)` accumulator of
`add_row`. -/
def RowAcc (m : DancingLinksMatrix) : Option (Int × Int) → Prop
  | none => True
  | some fp => 0 ≤ fp.1 ∧ fp.1 < (m.nodes.length : Int) ∧
      0 ≤ fp.2 ∧ fp.2 < (m.nodes.length : Int)

/-- The header-list scan of `choose_column`: indices visited following
`right` links from `start` until the root (index 0).  Each visited index
is a live column header: positive, inside the arena, and at most the
number of column records (so the loop's bounds guard passes). -/
inductive RChain (m : DancingLinksMatrix) : Int → List Int → Prop
  | nil : RChain m 0 []
  | cons : ∀ x xs, 0 < x → x < (m.nodes.length : Int) →
      x ≤ (m.columns.length : Int) →
      RChain m ((m.nodes.getD x.toNat default).right) xs →
      RChain m x (x :: xs)

/-- Pure replay of the `choose_column` loop over the list of visited
column indices (`col_idx = header index - 1`). -/
def scanCols (m : DancingLinksMatrix) : List Int → Option Int → Option Int → Option Int
  | [], _, best => best
  | j :: js, minS, best =>
    if ltMin (sizeAt m j.toNat) minS then
      scanCols m js (some (sizeAt m j.toNat)) (some j)
    else scanCols m js minS best

/-- Modelled from the spec's words: the running (size, column-index)
lexicographic minimum — "choose the live column with the minimum size
(ties broken by natural column order)". -/
def natMinAcc (m : DancingLinksMatrix) : List Int → Option Int → Option Int
  | [], best => best
  | j :: js, best =>
    match best with
    | none => natMinAcc m js (some j)
    | some b =>
      if sizeAt m j.toNat < sizeAt m b.toNat ∨
          (sizeAt m j.toNat = sizeAt m b.toNat ∧ j < b) then
        natMinAcc m js (some j)
      else natMinAcc m js (some b)

/-- The column of minimum size with ties broken by smallest natural
column index, among a list of candidate columns. -/
def specNaturalMin (m : DancingLinksMatrix) (cols : List Int) : Option Int :=
  natMinAcc m cols none

/-- Local well-formedness of one live (non-header, non-root) node as
`cover`'s inner loop visits it: canonical in-range links, a proper
doubly-linked vertical neighbourhood (`up/down` inverse of each other),
no vertical self-loop, and a column field whose record exists.  Every
node of a well-formed matrix that is still linked into its column
satisfies this. -/
def CellOK (m : DancingLinksMatrix) (x : Int) : Prop :=
  0 ≤ x ∧ x < (m.nodes.length : Int) ∧
  0 ≤ (m.nodes.getD x.toNat default).up ∧
  (m.nodes.getD x.toNat default).up < (m.nodes.length : Int) ∧
  0 ≤ (m.nodes.getD x.toNat default).down ∧
  (m.nodes.getD x.toNat default).down < (m.nodes.length : Int) ∧
  (m.nodes.getD x.toNat default).up ≠ x ∧
  (m.nodes.getD x.toNat default).down ≠ x ∧
  (m.nodes.getD (m.nodes.getD x.toNat default).up.toNat default).down = x ∧
  (m.nodes.getD (m.nodes.getD x.toNat default).down.toNat default).up = x ∧
  0 ≤ (m.nodes.getD x.toNat default).column - 1 ∧
  (m.nodes.getD x.toNat default).column - 1 < (m.columns.length : Int)

/-- Conditions on a visited cell relative to the protected node set
(`prot`: the covered column's header and its row nodes, whose `up/down`
links the traversals rely on) and the covered column's header index
`hIdx`: the cell's vertical neighbours are outside `prot`, and the cell
belongs to a different column than the one being covered. -/
def InCond (m : DancingLinksMatrix) (prot : List Int) (hIdx : Int)
    (x : Int) : Prop :=
  CellOK m x ∧
  (m.nodes.getD x.toNat default).up ∉ prot ∧
  (m.nodes.getD x.toNat default).down ∉ prot ∧
  (m.nodes.getD x.toNat default).column ≠ hIdx

/-- Trace of `cover`'s inner loop over one row: starting at node index
`cur` (with `prev` the node to its left), unlink nodes following
`right` links until the row node `row` is reached again; `cells` lists
the visited nodes and `m2` is the resulting state.  The recorded
left-links make the mirror `uncover` traversal walk the same cells in
reverse. -/
inductive InnerTrace (prot : List Int) (hIdx : Int) (row : Int) :
    DancingLinksMatrix → Int → Int → List Int → DancingLinksMatrix → Prop
  | nil : ∀ m prev, (m.nodes.getD row.toNat default).left = prev →
      InnerTrace prot hIdx row m prev row [] m
  | cons : ∀ m prev cur cells m1 m2, cur ≠ row →
      InCond m prot hIdx cur →
      (m.nodes.getD cur.toNat default).left = prev →
      unlinkStep m cur = some m1 →
      InnerTrace prot hIdx row m1 cur
        ((m1.nodes.getD cur.toNat default).right) cells m2 →
      InnerTrace prot hIdx row m prev cur (cur :: cells) m2

/-- Trace of `cover`'s outer loop: starting at row node `cur` (with
`prev` the row above), process each row's inner trace and follow `down`
links until the column header `hIdx` is reached; `rows` pairs each row
node with its visited cells. -/
inductive OuterTrace (prot : List Int) (hIdx : Int) :
    DancingLinksMatrix → Int → Int → List (Int × List Int) →
      DancingLinksMatrix → Prop
  | nil : ∀ m prev, (m.nodes.getD hIdx.toNat default).up = prev →
      OuterTrace prot hIdx m prev hIdx [] m
  | cons : ∀ m prev cur cells m1 rows m2, cur ≠ hIdx →
      0 ≤ cur → cur < (m.nodes.length : Int) → cur ∈ prot →
      (m.nodes.getD cur.toNat default).up = prev →
      InnerTrace prot hIdx cur m cur
        ((m.nodes.getD cur.toNat default).right) cells m1 →
      OuterTrace prot hIdx m1 cur
        ((m1.nodes.getD cur.toNat default).down) rows m2 →
      OuterTrace prot hIdx m prev cur ((cur, cells) :: rows) m2

/-- Fuel sufficient for `coverOuter`/`uncoverOuter` over a trace. -/
def outerFuel : List (Int × List Int) → Nat
  | [] => 1
  | (_, cs) :: rest => 1 + max (cs.length + 1) (outerFuel rest)

/-- Total number of cell unlinks in a trace. -/
def traceWeight : List (Int × List Int) → Nat
  | [] => 0
  | (_, cs) :: rest => cs.length + traceWeight rest

/-- The observations C9 says `cover(c)` must not disturb: the size of
column `c`, the `up`/`down` links of the column's header and row nodes
(the protected set), and the header's own `left`/`right` fields. -/
def colObs (m : DancingLinksMatrix) (c : Int) (prot : List Int) :
    Int × List (Int × Int) × Int × Int :=
  (sizeAt m c.toNat,
   prot.map (fun p => ((m.nodes.getD p.toNat default).up,
     (m.nodes.getD p.toNat default).down)),
   (m.nodes.getD (c + 1).toNat default).left,
   (m.nodes.getD (c + 1).toNat default).right)

/-- `mat2r` after unlinking column 0's header from the horizontal
header list (the first mutation of `cover(0)`). -/
def mat2rHdr : DancingLinksMatrix := (hdrUnlink mat2r 1).getD default

/-- `mat2rHdr` after vertically unlinking node 4, the single inner-loop
step of `cover(0)` on `mat2r`. -/
def mat2rCov : DancingLinksMatrix := (unlinkStep mat2rHdr 4).getD default

-- ===================================================================
-- Theorems
-- ===================================================================

/-- **C1** (code bug, concrete evaluation at the failing input).
The spec: "Matrix is fully restored to its initial (uncovered) state on
return regardless of outcome — this must hold even when the caller only
wants the first solution."  The code: on `solve(find_all=False)` over the
one-column matrix with the single row 0, the first solution `[0]` is
found, but the early `return True` (line 355) skips `solution.pop`, the
row uncovers and `uncover(col_idx)` at every level, so the root header's
`right` link is left at 0 (all columns still covered) instead of its
initial value 1. -/
theorem c1_solve_false_leaves_matrix_covered :
    (solve 20 (mkSolver mat1) false).map
        (fun p => (p.2, (p.1.matrix.nodes.getD 0 default).right,
          p.1.solution)) = some ([[0]], 0, [0]) ∧
    (mat1.nodes.getD 0 default).right = 1 := by
  constructor
  · rfl
  · rfl

/-- **C2** (code bug, concrete evaluation at the failing input).
Because the first `solve(False)` call leaves the matrix fully covered
(see C1), a second `solve(False)` on the same matrix immediately sees an
empty header list and reports the empty selection as a solution: the
first call returns `[[0]]`, the second returns `[[]]`. -/
theorem c2_second_solve_differs :
    ((solve 20 (mkSolver mat1) false).bind
      (fun p => (solve 20 p.1 false).map (fun q => (p.2, q.2)))) =
      some ([[0]], [[]]) := by rfl

/-- **C4 counterexample**: `create 0` is not accepted — the Python
constructor raises an IndexError at `self.nodes[1].left = 0`
(line 106), so the zero-column matrix cannot be constructed. -/
theorem c4_counterexample : create 0 = none := by rfl

/-- **C3 counterexample**: `add_row` does not report a duplicate column
index: on a fresh two-column matrix, `add_row(0, [0, 0])` succeeds and
splices both nodes, leaving column 0 with size 2 (it was 0 before the
call) — no error, and the matrix is mutated. -/
theorem c3_counterexample :
    (add_row mat2 0 [0, 0]).isOk = true ∧
    (add_row mat2 0 [0, 0]).toOption.map (fun m => sizeAt m 0) = some 2 ∧
    sizeAt mat2 0 = 0 := by
  refine ⟨rfl, rfl, rfl⟩

-- ------------------------------------------------------------------
-- Python-indexing toolkit
-- ------------------------------------------------------------------

theorem pyIdx_nonneg {len : Nat} {i : Int} (h0 : 0 ≤ i)
    (h1 : i < (len : Int)) : pyIdx len i = some i.toNat := by
  simp [pyIdx, h0, h1]

theorem pyIdx_some {len : Nat} {i : Int} (h0 : -(len : Int) ≤ i)
    (h1 : i < (len : Int)) : ∃ p, pyIdx len i = some p ∧ p < len := by
  unfold pyIdx
  by_cases hi : 0 ≤ i
  · exact ⟨i.toNat, by simp [hi, h1], by omega⟩
  · refine ⟨((len : Int) + i).toNat, ?_, by omega⟩
    simp only [hi, if_false]
    rw [if_neg (by omega)]

theorem pyIdx_bound {len : Nat} {i : Int} {p : Nat}
    (h : pyIdx len i = some p) : p < len := by
  unfold pyIdx at h
  by_cases hi : 0 ≤ i <;> simp [hi] at h
  · omega
  · rcases h with ⟨h1, h2⟩; omega

theorem getD_set_self {α : Type _} {l : List α} {p : Nat} (a d : α)
    (h : p < l.length) : (l.set p a).getD p d = a := by
  simp [List.getD_eq_getElem?_getD, List.getElem?_set_self h]

theorem getD_set_ne {α : Type _} {l : List α} {p q : Nat} (a d : α)
    (h : p ≠ q) : (l.set p a).getD q d = l.getD q d := by
  simp [List.getD_eq_getElem?_getD, List.getElem?_set_ne h]

theorem set_getD_self {α : Type _} {l : List α} {p : Nat} (d : α) :
    l.set p (l.getD p d) = l := by
  induction l generalizing p with
  | nil => rfl
  | cons a l ih =>
    cases p with
    | zero => simp [List.getD]
    | succ p =>
      show a :: l.set p (l.getD p d) = a :: l
      rw [ih]

theorem getD_mem {α : Type _} {l : List α} {p : Nat} (d : α)
    (h : p < l.length) : l.getD p d ∈ l := by
  rw [List.getD_eq_getElem?_getD, List.getElem?_eq_getElem h]
  exact List.getElem_mem h

-- nget / nmod / cget / cmod characterizations

theorem nget_eq {m : DancingLinksMatrix} {i : Int} (h0 : 0 ≤ i)
    (h1 : i < (m.nodes.length : Int)) :
    m.nget i = some (m.nodes.getD i.toNat default) := by
  simp [DancingLinksMatrix.nget, pyGet, pyIdx_nonneg h0 (by exact_mod_cast h1)]

theorem nmod_eq {m : DancingLinksMatrix} {i : Int} (f : DLXNode → DLXNode)
    (h0 : 0 ≤ i) (h1 : i < (m.nodes.length : Int)) :
    m.nmod i f = some { m with
      nodes := m.nodes.set i.toNat (f (m.nodes.getD i.toNat default)) } := by
  simp [DancingLinksMatrix.nmod, pyModify, pyIdx_nonneg h0 (by exact_mod_cast h1)]

theorem cget_eq {m : DancingLinksMatrix} {i : Int} (h0 : 0 ≤ i)
    (h1 : i < (m.columns.length : Int)) :
    m.cget i = some (m.columns.getD i.toNat default) := by
  simp [DancingLinksMatrix.cget, pyGet, pyIdx_nonneg h0 (by exact_mod_cast h1)]

theorem cmod_eq {m : DancingLinksMatrix} {i : Int} (f : DLXColumn → DLXColumn)
    (h0 : 0 ≤ i) (h1 : i < (m.columns.length : Int)) :
    m.cmod i f = some { m with
      columns := m.columns.set i.toNat (f (m.columns.getD i.toNat default)) } := by
  simp [DancingLinksMatrix.cmod, pyModify, pyIdx_nonneg h0 (by exact_mod_cast h1)]

theorem nmod_some {m : DancingLinksMatrix} {i : Int} (f : DLXNode → DLXNode)
    (h0 : -(m.nodes.length : Int) ≤ i) (h1 : i < (m.nodes.length : Int)) :
    ∃ p m', pyIdx m.nodes.length i = some p ∧ p < m.nodes.length ∧
      m.nmod i f = some m' ∧
      m' = { m with nodes := m.nodes.set p (f (m.nodes.getD p default)) } := by
  obtain ⟨p, hp, hlt⟩ := pyIdx_some h0 (by exact_mod_cast h1)
  exact ⟨p, _, hp, hlt, by simp [DancingLinksMatrix.nmod, pyModify, hp], rfl⟩

-- generic Option-fold invariant

theorem foldlM_option_inv {α β : Type _} (step : β → α → Option β)
    (P : β → Prop) :
    ∀ (l : List α) (b : β), P b →
    (∀ b a, a ∈ l → P b → ∃ b', step b a = some b' ∧ P b') →
    ∃ b', l.foldlM step b = some b' ∧ P b' := by
  intro l
  induction l with
  | nil => exact fun b hb _ => ⟨b, rfl, hb⟩
  | cons a l ih =>
    intro b hb hstep
    obtain ⟨b1, hs, hP⟩ := hstep b a (by simp) hb
    obtain ⟨b', hfold, hP'⟩ :=
      ih b1 hP (fun b a ha hb => hstep b a (List.mem_cons_of_mem _ ha) hb)
    exact ⟨b', by simp [List.foldlM_cons, hs, hfold], hP'⟩

/-- What `nmod` can do to the state, packaged for invariant
preservation arguments. -/
theorem nmod_props {m : DancingLinksMatrix} {i : Int} (f : DLXNode → DLXNode)
    (h0 : 0 ≤ i) (h1 : i < (m.nodes.length : Int)) :
    ∃ m', m.nmod i f = some m' ∧
      m'.nodes.length = m.nodes.length ∧ m'.columns = m.columns ∧
      m'.num_columns = m.num_columns ∧
      (∀ nd ∈ m'.nodes, nd ∈ m.nodes ∨
        nd = f (m.nodes.getD i.toNat default)) := by
  refine ⟨_, nmod_eq f h0 h1, by simp, rfl, rfl, ?_⟩
  intro nd hnd
  exact List.mem_or_eq_of_mem_set hnd

/-- What `cmod` can do to the state. -/
theorem cmod_props {m : DancingLinksMatrix} {i : Int} (f : DLXColumn → DLXColumn)
    (h0 : 0 ≤ i) (h1 : i < (m.columns.length : Int)) :
    ∃ m', m.cmod i f = some m' ∧
      m'.nodes = m.nodes ∧ m'.columns.length = m.columns.length ∧
      m'.num_columns = m.num_columns := by
  exact ⟨_, cmod_eq f h0 h1, rfl, by simp, rfl⟩

-- ------------------------------------------------------------------
-- create: succeeds exactly for n ≥ 1, and establishes BInv
-- ------------------------------------------------------------------

theorem initMatrix_lengths (n : Nat) :
    (initMatrix n).columns.length = n ∧ (initMatrix n).nodes.length = n + 1 := by
  simp [initMatrix]

theorem initMatrix_BInv (n : Nat) : BInv n (initMatrix n) := by
  obtain ⟨hc, hn⟩ := initMatrix_lengths n
  refine ⟨hc, by omega, ?_⟩
  intro nd hnd
  rw [hn]
  simp only [initMatrix, List.mem_cons, List.mem_map] at hnd
  rcases hnd with h | ⟨i, _, h⟩ <;> subst h <;> constructor <;> simp <;> omega

theorem createStep_spec {n : Nat} {m : DancingLinksMatrix} {i : Nat}
    (hi : i < n) (hP : BInv n m) :
    ∃ m', createStep n m i = some m' ∧ BInv n m' := by
  obtain ⟨hc, hnl, hup⟩ := hP
  obtain ⟨mA, hcm, hAn, hAc, hAnum⟩ :=
    cmod_props (m := m) (i := (i : Int))
      (fun c => { c with
        left := if 0 < i then ((i : Int) - 1) % (n : Int) + 1 else (n : Int),
        right := if (i : Int) < (n : Int) - 1 then ((i : Int) + 1) % (n : Int) + 1 else 1,
        first := (i : Int) + 1 }) (by omega) (by omega)
  obtain ⟨mB, hnm, hBn, hBc, hBnum, hBmem⟩ :=
    nmod_props (m := mA) (i := (i : Int) + 1)
      (fun nd => { nd with
        left := if 0 < i then ((i : Int) - 1) % (n : Int) + 1 else (n : Int),
        right := if (i : Int) < (n : Int) - 1 then ((i : Int) + 1) % (n : Int) + 1 else 1,
        up := (i : Int) + 1, down := (i : Int) + 1 })
      (by omega) (by rw [hAn]; exact_mod_cast by omega)
  refine ⟨mB, ?_, ?_, ?_, ?_⟩
  · simp only [createStep, Option.bind_eq_bind]
    rw [hcm]
    simp only [Option.some_bind]
    rw [hnm]
    rfl
  · rw [hBc, hAc, hc]
  · rw [hBn, hAn]; exact hnl
  · intro nd hnd
    rw [hBn, hAn]
    rcases hBmem nd hnd with h | h
    · rw [hAn] at h
      exact hup nd h
    · subst h
      constructor <;> simp <;> omega

theorem create_spec {n : Nat} (hn : 1 ≤ n) :
    ∃ m, create n = some m ∧ BInv n m := by
  obtain ⟨m1, hfold, hP1⟩ :=
    foldlM_option_inv (createStep n) (BInv n) (List.range n) (initMatrix n)
      (initMatrix_BInv n)
      (fun m i hi hP => createStep_spec (List.mem_range.mp hi) hP)
  obtain ⟨hc1, hn1, hup1⟩ := hP1
  obtain ⟨m2, h2, hl2, hc2, _, hm2⟩ :=
    nmod_props (m := m1) (i := 0) (fun nd => { nd with right := 1 }) (by omega)
      (by omega)
  obtain ⟨m3, h3, hl3, hc3, _, hm3⟩ :=
    nmod_props (m := m2) (i := 0) (fun nd => { nd with left := (n : Int) })
      (by omega) (by omega)
  obtain ⟨m4, h4, hl4, hc4, _, hm4⟩ :=
    nmod_props (m := m3) (i := 1) (fun nd => { nd with left := 0 }) (by omega)
      (by omega)
  obtain ⟨m5, h5, hl5, hc5, _, hm5⟩ :=
    nmod_props (m := m4) (i := (n : Int)) (fun nd => { nd with right := 0 })
      (by omega) (by omega)
  have up2 : UpBound m2 := by
    intro nd hnd
    rw [hl2]
    rcases hm2 nd hnd with h | h
    · exact hup1 nd h
    · subst h
      have := hup1 (m1.nodes.getD (Int.toNat 0) default)
        (getD_mem default (by omega))
      simpa using this
  have up3 : UpBound m3 := by
    intro nd hnd
    rw [hl3, hl2]
    rcases hm3 nd hnd with h | h
    · have := up2 nd h; rwa [hl2] at this
    · subst h
      have := up2 (m2.nodes.getD (Int.toNat 0) default)
        (getD_mem default (by omega))
      rw [hl2] at this
      simpa using this
  have up4 : UpBound m4 := by
    intro nd hnd
    rw [hl4, hl3, hl2]
    rcases hm4 nd hnd with h | h
    · have := up3 nd h; rwa [hl3, hl2] at this
    · subst h
      have := up3 (m3.nodes.getD (Int.toNat 1) default)
        (getD_mem default (by omega))
      rw [hl3, hl2] at this
      simpa using this
  have up5 : UpBound m5 := by
    intro nd hnd
    rw [hl5, hl4, hl3, hl2]
    rcases hm5 nd hnd with h | h
    · have := up4 nd h; rwa [hl4, hl3, hl2] at this
    · subst h
      have := up4 (m4.nodes.getD (Int.toNat (n : Int)) default)
        (getD_mem default (by omega))
      rw [hl4, hl3, hl2] at this
      simpa using this
  refine ⟨m5, ?_, ?_, ?_, up5⟩
  · simp only [create, Option.bind_eq_bind]
    rw [hfold]
    simp only [Option.some_bind]
    rw [h2]
    simp only [Option.some_bind]
    rw [h3]
    simp only [Option.some_bind]
    rw [h4]
    simp only [Option.some_bind]
    rw [h5]
    rfl
  · rw [hc5, hc4, hc3, hc2, hc1]
  · omega

/-- **C4** (amended): `create(numColumns)` succeeds exactly when
`numColumns ≥ 1`; `create(0)` raises an IndexError while linking the
header (line 106, `self.nodes[1]`), so the zero-column trivially
satisfied instance is not constructible. -/
theorem c4_create_succeeds_iff_positive (n : Nat) :
    (create n).isSome ↔ 1 ≤ n := by
  constructor
  · intro h
    by_contra hn
    have h0 : n = 0 := by omega
    rw [h0, c4_counterexample] at h
    simp at h
  · intro hn
    obtain ⟨m, hm, _⟩ := create_spec hn
    simp [hm]

-- ------------------------------------------------------------------
-- add_row: no validation; sizes grow by occurrence count
-- ------------------------------------------------------------------

theorem ok_bind {ε α β : Type _} (a : α) (f : α → Except ε β) :
    (Except.ok a : Except ε α) >>= f = f a := rfl

theorem err_bind {ε α β : Type _} (e : ε) (f : α → Except ε β) :
    (Except.error e : Except ε α) >>= f = Except.error e := rfl

theorem pyIdx_resolveCol {n : Nat} {c : Int} (h0 : -(n : Int) ≤ c)
    (h1 : c < (n : Int)) :
    pyIdx n c = some (resolveCol n c) ∧ resolveCol n c < n := by
  unfold pyIdx resolveCol
  by_cases hc : 0 ≤ c
  · rw [if_pos hc, if_pos h1, if_neg (by omega)]
    exact ⟨rfl, by omega⟩
  · rw [if_neg hc, if_neg (by omega), if_pos (by omega)]
    exact ⟨rfl, by omega⟩

/-- `nmod` at a possibly negative (Python) index. -/
theorem nmod_any {m : DancingLinksMatrix} {i : Int} (f : DLXNode → DLXNode)
    (h0 : -(m.nodes.length : Int) ≤ i) (h1 : i < (m.nodes.length : Int)) :
    ∃ m', m.nmod i f = some m' ∧
      m'.nodes.length = m.nodes.length ∧ m'.columns = m.columns ∧
      m'.num_columns = m.num_columns ∧
      (∀ nd ∈ m'.nodes, nd ∈ m.nodes ∨
        ∃ q, q < m.nodes.length ∧ nd = f (m.nodes.getD q default)) := by
  obtain ⟨p, hp, hplt⟩ := pyIdx_some h0 (by exact_mod_cast h1)
  refine ⟨{ m with nodes := m.nodes.set p (f (m.nodes.getD p default)) },
    by simp [DancingLinksMatrix.nmod, pyModify, hp], by simp, rfl, rfl, ?_⟩
  intro nd hnd
  rcases List.mem_or_eq_of_mem_set hnd with h | h
  · exact Or.inl h
  · exact Or.inr ⟨p, hplt, h⟩

/-- `cmod` at a possibly negative (Python) index, with the resolved
position made explicit. -/
theorem cmod_any {m : DancingLinksMatrix} {i : Int} (f : DLXColumn → DLXColumn)
    (h0 : -(m.columns.length : Int) ≤ i) (h1 : i < (m.columns.length : Int)) :
    ∃ m', m.cmod i f = some m' ∧ m'.nodes = m.nodes ∧
      m'.num_columns = m.num_columns ∧
      m'.columns = m.columns.set (resolveCol m.columns.length i)
        (f (m.columns.getD (resolveCol m.columns.length i) default)) := by
  obtain ⟨hp, hplt⟩ := pyIdx_resolveCol (n := m.columns.length) h0 (by exact_mod_cast h1)
  refine ⟨{ m with columns := m.columns.set (resolveCol m.columns.length i) (f (m.columns.getD (resolveCol m.columns.length i) default)) }, ?_, rfl, rfl, rfl⟩
  unfold DancingLinksMatrix.cmod pyModify
  rw [hp]
  rfl

theorem add_row_step_spec {n : Nat} {row_id c : Int} {m : DancingLinksMatrix}
    {fp : Option (Int × Int)} (hB : BInv n m) (hacc : RowAcc m fp)
    (hc0 : -(n : Int) ≤ c) (hc1 : c < (n : Int)) :
    ∃ m' fp', add_row_step row_id (m, fp) c = Except.ok (m', fp') ∧
      BInv n m' ∧ RowAcc m' fp' ∧
      m.nodes.length < m'.nodes.length ∧
      ∀ j, j < n → sizeAt m' j = sizeAt m j +
        (if resolveCol n c = j then 1 else 0) := by
  obtain ⟨hcl, hnl, hup⟩ := hB
  set newNode : DLXNode := { column := c + 1, row := row_id } with hnew
  set mAp : DancingLinksMatrix := { m with nodes := m.nodes ++ [newNode] } with hmAp
  have hApLen : mAp.nodes.length = m.nodes.length + 1 := by simp [hmAp]
  have hApCols : mAp.columns = m.columns := rfl
  have hupAp : UpBound mAp := by
    intro nd hnd
    rw [hApLen]
    have hnd' : nd ∈ m.nodes ∨ nd = newNode := by
      have h2 : nd ∈ m.nodes ++ [newNode] := by rw [hmAp] at hnd; exact hnd
      simpa using h2
    rcases hnd' with h | h
    · have := hup nd h
      exact ⟨this.1, by have h2 := this.2; push_cast; omega⟩
    · subst h
      rw [hnew]
      exact ⟨le_refl _, by push_cast; omega⟩
  -- line 130 read
  obtain ⟨pc, hpc, hpclt⟩ : ∃ p, pyIdx mAp.columns.length c = some p ∧
      p < mAp.columns.length := by
    rw [hApCols, hcl]
    exact pyIdx_some hc0 (by exact_mod_cast hc1)
  have hcget : mAp.cget c = some (mAp.columns.getD pc default) := by
    unfold DancingLinksMatrix.cget pyGet
    rw [hpc]
    rfl
  -- line 133 read
  obtain ⟨ph, hph, hphlt⟩ : ∃ p, pyIdx mAp.nodes.length (c + 1) = some p ∧
      p < mAp.nodes.length := by
    rw [hApLen]
    refine pyIdx_some (by push_cast; omega) (by push_cast; omega)
  have hnget : mAp.nget (c + 1) = some (mAp.nodes.getD ph default) := by
    unfold DancingLinksMatrix.nget pyGet
    rw [hph]
    rfl
  set last : Int := (mAp.nodes.getD ph default).up with hlastdef
  have hlast : -1 ≤ last ∧ last < (mAp.nodes.length : Int) :=
    hupAp (mAp.nodes.getD ph default) (getD_mem default hphlt)
  -- lines 134-135 write (node_idx = old length)
  obtain ⟨mB, hB1, hBlen, hBcols, hBnum, hBmem⟩ :=
    nmod_props (m := mAp) (i := (m.nodes.length : Int))
      (fun nd => { nd with up := last, down := c + 1 })
      (by omega) (by rw [hApLen]; push_cast; omega)
  have hupB : UpBound mB := by
    intro nd hnd
    rw [hBlen]
    rcases hBmem nd hnd with h | h
    · exact hupAp nd h
    · subst h
      exact ⟨hlast.1, hlast.2⟩
  -- line 136 write
  obtain ⟨mC, hC1, hClen, hCcols, hCnum, hCmem⟩ :=
    nmod_any (m := mB) (i := last)
      (fun nd => { nd with down := (m.nodes.length : Int) })
      (by rw [hBlen]; omega) (by rw [hBlen]; exact hlast.2)
  have hupC : UpBound mC := by
    intro nd hnd
    rw [hClen]
    rcases hCmem nd hnd with h | h
    · exact hupB nd h
    · obtain ⟨q, hq, rfl⟩ := h
      have := hupB (mB.nodes.getD q default) (getD_mem default hq)
      simpa using this
  -- line 137 write
  obtain ⟨mD, hD1, hDlen, hDcols, hDnum, hDmem⟩ :=
    nmod_any (m := mC) (i := c + 1)
      (fun nd => { nd with up := (m.nodes.length : Int) })
      (by rw [hClen, hBlen, hApLen]; push_cast; omega)
      (by rw [hClen, hBlen, hApLen]; push_cast; omega)
  have hupD : UpBound mD := by
    intro nd hnd
    rw [hDlen, hClen, hBlen, hApLen]
    rcases hDmem nd hnd with h | h
    · have := hupC nd h; rw [hClen, hBlen, hApLen] at this; exact this
    · obtain ⟨q, hq, rfl⟩ := h
      simp only
      push_cast
      omega
  -- line 139 write
  have hDcl : mD.columns.length = n := by
    rw [hDcols, hCcols, hBcols, hApCols, hcl]
  obtain ⟨mE, hE1, hEnodes, hEnum, hEcols⟩ :=
    cmod_any (m := mD) (i := c) (fun col => { col with size := col.size + 1 })
      (by rw [hDcl]; exact hc0) (by rw [hDcl]; exact_mod_cast hc1)
  have hupE : UpBound mE := by
    intro nd hnd
    rw [hEnodes] at hnd
    have := hupD nd hnd
    rw [hEnodes]
    exact this
  have hElen : mE.nodes.length = m.nodes.length + 1 := by
    rw [hEnodes, hDlen, hClen, hBlen, hApLen]
  have hEsize : ∀ j, j < n → sizeAt mE j = sizeAt m j +
      (if resolveCol n c = j then 1 else 0) := by
    intro j hj
    have hDsz : mD.columns = m.columns := by
      rw [hDcols, hCcols, hBcols, hApCols]
    have hres : resolveCol mD.columns.length c = resolveCol n c := by rw [hDcl]
    unfold sizeAt
    rw [hEcols, hres, hDsz]
    by_cases hcase : resolveCol n c = j
    · subst hcase
      rw [getD_set_self _ _
        (by rw [hcl]; exact (pyIdx_resolveCol hc0 (by exact_mod_cast hc1)).2)]
      simp
    · rw [getD_set_ne _ _ hcase, if_neg hcase]
      omega
  have hEcl : mE.columns.length = n := by
    rw [hEcols, List.length_set, hDcl]
  have hBInvE : BInv n mE := ⟨hEcl, by omega, hupE⟩
  -- now branch on the accumulator
  cases fp with
  | none =>
    refine ⟨mE, some ((m.nodes.length : Int), (m.nodes.length : Int)), ?_, hBInvE,
      ⟨by omega, by rw [hElen]; push_cast; omega, by omega,
        by rw [hElen]; push_cast; omega⟩, by omega, hEsize⟩
    simp only [add_row_step, ← hnew, ← hmAp, hcget, hnget, liftE, ok_bind,
      ← hlastdef, hB1, hC1, hD1, hE1]
    rfl
  | some fp0 =>
    obtain ⟨f0, p0⟩ := fp0
    obtain ⟨hf0a, hf0b, hp0a, hp0b⟩ := hacc
    obtain ⟨mF, hF1, hFlen, hFcols, hFnum, hFmem⟩ :=
      nmod_props (m := mE) (i := p0)
        (fun nd => { nd with right := (m.nodes.length : Int) })
        (by exact hp0a) (by rw [hElen]; push_cast; omega)
    obtain ⟨mG, hG1, hGlen, hGcols, hGnum, hGmem⟩ :=
      nmod_props (m := mF) (i := (m.nodes.length : Int))
        (fun nd => { nd with left := p0 })
        (by omega) (by rw [hFlen, hElen]; push_cast; omega)
    have hupF : UpBound mF := by
      intro nd hnd
      rw [hFlen]
      rcases hFmem nd hnd with h | h
      · exact hupE nd h
      · subst h
        have := hupE (mE.nodes.getD p0.toNat default)
          (getD_mem default (by rw [hElen]; omega))
        simpa using this
    have hupG : UpBound mG := by
      intro nd hnd
      rw [hGlen, hFlen]
      rcases hGmem nd hnd with h | h
      · have := hupF nd h; rw [hFlen] at this; exact this
      · subst h
        have := hupF (mF.nodes.getD (Int.toNat (m.nodes.length : Int)) default)
          (getD_mem default (by rw [hFlen, hElen]; simp))
        rw [hFlen] at this
        simpa using this
    have hGsz : ∀ j, j < n → sizeAt mG j = sizeAt m j +
        (if resolveCol n c = j then 1 else 0) := by
      intro j hj
      unfold sizeAt
      rw [hGcols, hFcols]
      exact hEsize j hj
    have hGcl : mG.columns.length = n := by
      rw [hGcols, hFcols, hEcl]
    refine ⟨mG, some (f0, (m.nodes.length : Int)), ?_,
      ⟨hGcl, by rw [hGlen, hFlen]; omega, hupG⟩,
      ⟨hf0a, by rw [hGlen, hFlen, hElen]; push_cast; omega, by omega,
        by rw [hGlen, hFlen, hElen]; push_cast; omega⟩,
      by rw [hGlen, hFlen, hElen]; omega, hGsz⟩
    simp only [add_row_step, ← hnew, ← hmAp, hcget, hnget, liftE, ok_bind,
      ← hlastdef, hB1, hC1, hD1, hE1, hF1, hG1]
    rfl

theorem add_row_fold {n : Nat} (row_id : Int) :
    ∀ (cols : List Int) (m : DancingLinksMatrix) (fp : Option (Int × Int)),
    BInv n m → RowAcc m fp →
    (∀ c ∈ cols, -(n : Int) ≤ c ∧ c < (n : Int)) →
    ∃ m' fp',
      List.foldlM (add_row_step row_id) (m, fp) cols = Except.ok (m', fp') ∧
      BInv n m' ∧ RowAcc m' fp' ∧
      ∀ j, j < n → sizeAt m' j = sizeAt m j +
        cols.countP (fun c => decide (resolveCol n c = j)) := by
  intro cols
  induction cols with
  | nil =>
    intro m fp hB hacc _
    exact ⟨m, fp, rfl, hB, hacc, by intro j hj; simp⟩
  | cons c cols ih =>
    intro m fp hB hacc hcols
    obtain ⟨m1, fp1, hstep, hB1, hacc1, _, hsz1⟩ :=
      add_row_step_spec hB hacc (hcols c (by simp)).1 (hcols c (by simp)).2
    obtain ⟨m2, fp2, hfold, hB2, hacc2, hsz2⟩ :=
      ih m1 fp1 hB1 hacc1 (fun x hx => hcols x (List.mem_cons_of_mem _ hx))
    refine ⟨m2, fp2, ?_, hB2, hacc2, ?_⟩
    · rw [List.foldlM_cons, hstep, ok_bind, hfold]
    · intro j hj
      rw [hsz2 j hj, hsz1 j hj, List.countP_cons]
      by_cases hc : resolveCol n c = j
      · have hd : decide (resolveCol n c = j) = true := by simp [hc]
        simp only [hd, if_true]
        omega
      · have hd : decide (resolveCol n c = j) = false := by simp [hc]
        simp only [hd, Bool.false_eq_true, if_false]
        omega

theorem add_row_spec {n : Nat} {m : DancingLinksMatrix} (row_id : Int)
    (cols : List Int) (hB : BInv n m)
    (hcols : ∀ c ∈ cols, -(n : Int) ≤ c ∧ c < (n : Int)) :
    ∃ m', add_row m row_id cols = Except.ok m' ∧ BInv n m' ∧
      ∀ j, j < n → sizeAt m' j = sizeAt m j +
        cols.countP (fun c => decide (resolveCol n c = j)) := by
  cases cols with
  | nil => exact ⟨m, rfl, hB, by intro j hj; simp⟩
  | cons c0 cols0 =>
    obtain ⟨m1, fp1, hfold, hB1, hacc1, hsz⟩ :=
      add_row_fold row_id (c0 :: cols0) m none hB trivial hcols
    cases fp1 with
    | none =>
      refine ⟨m1, ?_, hB1, hsz⟩
      simp only [add_row, List.isEmpty_cons, Bool.false_eq_true, if_false,
        hfold, ok_bind]
      rfl
    | some fp0 =>
      obtain ⟨f0, p0⟩ := fp0
      obtain ⟨hf0a, hf0b, hp0a, hp0b⟩ := hacc1
      obtain ⟨hcl1, hnl1, hup1⟩ := hB1
      obtain ⟨mX, hX1, hXlen, hXcols, _, hXmem⟩ :=
        nmod_props (m := m1) (i := p0)
          (fun nd => { nd with right := f0 }) hp0a hp0b
      obtain ⟨mY, hY1, hYlen, hYcols, _, hYmem⟩ :=
        nmod_props (m := mX) (i := f0)
          (fun nd => { nd with left := p0 }) hf0a (by rw [hXlen]; exact hf0b)
      have hupX : UpBound mX := by
        intro nd hnd
        rw [hXlen]
        rcases hXmem nd hnd with h | h
        · exact hup1 nd h
        · subst h
          have := hup1 (m1.nodes.getD p0.toNat default)
            (getD_mem default (by omega))
          simpa using this
      have hupY : UpBound mY := by
        intro nd hnd
        rw [hYlen, hXlen]
        rcases hYmem nd hnd with h | h
        · have := hupX nd h; rw [hXlen] at this; exact this
        · subst h
          have := hupX (mX.nodes.getD f0.toNat default)
            (getD_mem default (by rw [hXlen]; omega))
          rw [hXlen] at this
          simpa using this
      refine ⟨mY, ?_, ⟨by rw [hYcols, hXcols, hcl1], by rw [hYlen, hXlen]; omega, hupY⟩, ?_⟩
      · simp only [add_row, List.isEmpty_cons, Bool.false_eq_true, if_false,
          hfold, ok_bind, hX1, liftE, hY1]
        rfl
      · intro j hj
        have : sizeAt mY j = sizeAt m1 j := by
          unfold sizeAt
          rw [hYcols, hXcols]
        rw [this, hsz j hj]

/-- Every matrix reachable from `create`/`add_row` satisfies the
construction invariant. -/
theorem built_BInv {n : Nat} {m : DancingLinksMatrix} (h : Built n m) :
    BInv n m := by
  induction h with
  | base m hn hc =>
    obtain ⟨m', hm', hB⟩ := create_spec hn
    rw [hc] at hm'
    cases hm'
    exact hB
  | step m rid cols m' hb hcols hadd ih =>
    obtain ⟨m'', hok, hB'', _⟩ := add_row_spec rid cols ih hcols
    rw [hadd] at hok
    cases hok
    exact hB''

/-- **C10**: `add_row` performs no validation of its column indices.
For any reachable matrix and any column list whose entries are in
Python's index range `[-numColumns, numColumns)`, the call completes
without raising, and each column position `j` gains one unit of size per
occurrence of an index resolving to `j` — in particular a negative index
`c` silently increments the size counter of column `numColumns + c`
(`resolveCol` is Python's negative-index resolution). -/
theorem c10_add_row_accepts_negative_indices {n : Nat}
    {m : DancingLinksMatrix} (row_id : Int) (cols : List Int)
    (hb : Built n m)
    (hcols : ∀ c ∈ cols, -(n : Int) ≤ c ∧ c < (n : Int)) :
    sizesOfE (add_row m row_id cols) n =
      some ((List.range n).map (fun j => sizeAt m j +
        cols.countP (fun c => decide (resolveCol n c = j)))) := by
  obtain ⟨m', hok, _, hsz⟩ := add_row_spec row_id cols (built_BInv hb) hcols
  rw [hok]
  exact congrArg some
    (List.map_congr_left (fun j hj => hsz j (List.mem_range.mp hj)))

/-- Witness for C10: adding a row with the negative index -1 to a fresh
two-column matrix succeeds and increments the size of column
`numColumns + (-1) = 1`. -/
theorem c10_witness : sizesOfE (add_row mat2 5 [-1]) 2 = some [0, 1] := by
  have h := c10_add_row_accepts_negative_indices (n := 2) (m := mat2) 5 [-1]
    (Built.base 2 mat2 (by omega) (by rfl)) (by decide)
  rw [h]
  rfl

/-- The out-of-range half of C3's amendment: an index `c0 ≥ numColumns`
raises an IndexError at line 130 only after the node was appended at
line 126, so the matrix the caller observes is mutated. -/
theorem add_row_oob {n : Nat} {m : DancingLinksMatrix} (hB : BInv n m)
    (row_id c0 : Int) (rest : List Int) (hoob : (n : Int) ≤ c0) :
    add_row m row_id (c0 :: rest) =
      Except.error
        { m with nodes := m.nodes ++ [{ column := c0 + 1, row := row_id }] } := by
  obtain ⟨hcl, hnl, _⟩ := hB
  set mAp : DancingLinksMatrix :=
    { m with nodes := m.nodes ++ [{ column := c0 + 1, row := row_id }] } with hmAp
  have hfail : mAp.cget c0 = none := by
    unfold DancingLinksMatrix.cget pyGet pyIdx
    rw [if_pos (by omega), if_neg (by push_cast; rw [show mAp.columns = m.columns from rfl, hcl]; omega)]
    rfl
  simp only [add_row, List.isEmpty_cons, Bool.false_eq_true, if_false,
    List.foldlM_cons, add_row_step, ← hmAp, hfail, liftE, err_bind]
  rfl

/-- **C3** (amended): `add_row` does not validate its input.  A
duplicate column index within one call is accepted silently: each
occurrence splices a node and increments the column's size, so the
duplicated column gains size 2.  An out-of-range index `c0 ≥ numColumns`
raises an uncaught IndexError, but only after the offending node has
been appended to the arena (line 126 precedes the failing subscript at
line 130), so the matrix is left mutated, not in its pre-call state. -/
theorem c3_add_row_does_not_validate {n : Nat} {m : DancingLinksMatrix}
    (row_id row_id' c c0 : Int) (rest : List Int) (hb : Built n m)
    (hc00 : 0 ≤ c) (hc1 : c < (n : Int)) (hoob : (n : Int) ≤ c0) :
    sizesOfE (add_row m row_id [c, c]) n =
      some ((List.range n).map (fun j => sizeAt m j +
        (if c.toNat = j then 2 else 0))) ∧
    add_row m row_id' (c0 :: rest) =
      Except.error
        { m with nodes := m.nodes ++ [{ column := c0 + 1, row := row_id' }] } := by
  constructor
  · obtain ⟨m', hok, _, hsz⟩ := add_row_spec row_id [c, c] (built_BInv hb)
      (by
        intro x hx
        simp only [List.mem_cons, List.not_mem_nil, or_false] at hx
        rcases hx with rfl | rfl <;> exact ⟨by omega, hc1⟩)
    rw [hok]
    refine congrArg some (List.map_congr_left (fun j hj => ?_))
    rw [hsz j (List.mem_range.mp hj)]
    have hres : resolveCol n c = c.toNat := by
      unfold resolveCol
      rw [if_neg (by omega)]
    rw [List.countP_cons, List.countP_cons, List.countP_nil, hres]
    by_cases hcj : c.toNat = j
    · have hd : decide (c.toNat = j) = true := by simp [hcj]
      rw [hd, if_pos hcj]
      norm_num
    · have hd : decide (c.toNat = j) = false := by simp [hcj]
      rw [hd, if_neg hcj]
      norm_num
  · exact add_row_oob (built_BInv hb) row_id' c0 rest hoob

/-- Witness for C3: on the fresh two-column matrix, the duplicate call
`add_row(0, [0, 0])` yields size 2 in column 0, and `add_row(1, [2])`
raises with the node for column 2 already appended. -/
theorem c3_witness :
    sizesOfE (add_row mat2 0 [0, 0]) 2 =
      some ((List.range 2).map (fun j => sizeAt mat2 j +
        (if (0 : Int).toNat = j then 2 else 0))) ∧
    add_row mat2 1 ([2] : List Int) =
      Except.error
        { mat2 with nodes := mat2.nodes ++ [{ column := 2 + 1, row := 1 }] } := by
  have h := c3_add_row_does_not_validate (n := 2) (m := mat2) 0 1 0 2 []
    (Built.base 2 mat2 (by omega) (by rfl)) (by omega) (by omega) (by omega)
  exact h

-- ------------------------------------------------------------------
-- choose_column: first minimum-size column in header order
-- ------------------------------------------------------------------

theorem RChain_pos {m : DancingLinksMatrix} {s : Int} {xs : List Int}
    (hch : RChain m s xs) (hne : xs ≠ []) : 0 < s := by
  cases hch with
  | nil => exact absurd rfl hne
  | cons x xs hx0 _ _ _ => exact hx0

/-- The `choose_column` loop follows the chain and computes the pure
scan. -/
theorem chooseLoop_spec {m : DancingLinksMatrix} {cur : Int} {xs : List Int}
    (hch : RChain m cur xs) :
    ∀ fuel, xs.length < fuel → ∀ minS best,
    chooseLoop fuel m cur minS best =
      some (scanCols m (xs.map (fun x => x - 1)) minS best) := by
  induction hch with
  | nil =>
    intro fuel hf minS best
    obtain ⟨f, rfl⟩ : ∃ f, fuel = f + 1 := ⟨fuel - 1, by omega⟩
    simp [chooseLoop, scanCols]
  | cons x txs hx0 hxn hxc hchain ih =>
    intro fuel hf minS best
    obtain ⟨f, rfl⟩ : ∃ f, fuel = f + 1 := ⟨fuel - 1, by omega⟩
    have hcg := cget_eq (m := m) (i := x - 1) (by omega) (by omega)
    have hng := nget_eq (m := m) (i := x) (by omega) (by omega)
    simp only [chooseLoop, if_neg (show ¬x = 0 by omega),
      if_pos (show x - 1 < (m.columns.length : Int) by omega), hcg,
      Option.bind_eq_bind, Option.some_bind, hng, List.map_cons, scanCols,
      sizeAt]
    by_cases hlt : ltMin (m.columns.getD (x - 1).toNat default).size minS = true
    · rw [if_pos hlt, if_pos hlt]
      exact ih f (by simpa using hf) _ _
    · rw [if_neg hlt, if_neg hlt]
      exact ih f (by simpa using hf) _ _

theorem scanCols_eq_natMinAcc {m : DancingLinksMatrix} :
    ∀ (cols : List Int) (b : Int),
    (∀ j ∈ cols, b < j) → List.Pairwise (fun a c => a < c) cols →
    scanCols m cols (some (sizeAt m b.toNat)) (some b) =
      natMinAcc m cols (some b) := by
  intro cols
  induction cols with
  | nil => intro b _ _; rfl
  | cons j js ih =>
    intro b hall hsort
    have hbj : b < j := hall j (by simp)
    simp only [scanCols, natMinAcc]
    by_cases hlt : sizeAt m j.toNat < sizeAt m b.toNat
    · rw [if_pos (by simp [ltMin, hlt]), if_pos (Or.inl hlt)]
      exact ih j (fun k hk => List.rel_of_pairwise_cons hsort hk)
        (List.Pairwise.sublist (List.sublist_cons_self j js) hsort)
    · rw [if_neg (by simp [ltMin, hlt]),
        if_neg (by
          rintro (h | ⟨_, h⟩)
          · exact hlt h
          · omega)]
      exact ih b (fun k hk => hall k (List.mem_cons_of_mem _ hk))
        (List.Pairwise.sublist (List.sublist_cons_self j js) hsort)

theorem scanCols_start {m : DancingLinksMatrix} (j : Int) (js : List Int) :
    scanCols m (j :: js) none none =
      scanCols m js (some (sizeAt m j.toNat)) (some j) := by
  simp [scanCols, ltMin]

/-- **C7**: whenever at least one column is uncovered, `choose_column`
returns the uncovered column with the minimum size, and among tied
columns the one earliest in natural column order.  The hypothesis is the
header-list scan (`RChain`) from the root, which for every reachable
state visits the uncovered columns in increasing natural order
(`Chain'`), since cover removes and uncover re-inserts headers in
place. -/
theorem c7_choose_column_rule {m : DancingLinksMatrix} {xs : List Int}
    (hlen : 0 < m.nodes.length)
    (hch : RChain m ((m.nodes.getD (0 : Int).toNat default).right) xs)
    (hne : xs ≠ [])
    (hsorted : List.Chain' (fun a b => a < b) xs)
    {fuel : Nat} (hfuel : xs.length < fuel) :
    choose_column fuel m =
      some (specNaturalMin m (xs.map (fun x => x - 1))) := by
  have hx0 : 0 < (m.nodes.getD (0 : Int).toNat default).right :=
    RChain_pos hch hne
  unfold choose_column
  rw [nget_eq (m := m) (i := 0) (by omega) (by exact_mod_cast hlen)]
  simp only [Option.bind_eq_bind, Option.some_bind]
  rw [if_neg (by omega)]
  rw [chooseLoop_spec hch fuel hfuel none none]
  cases xs with
  | nil => exact absurd rfl hne
  | cons y ys =>
    congr 1
    simp only [List.map_cons]
    rw [scanCols_start]
    show _ = natMinAcc m (ys.map (fun x => x - 1)) (some (y - 1))
    have hpw : List.Pairwise (fun a b => a < b) (y :: ys) :=
      List.chain'_iff_pairwise.mp hsorted
    apply scanCols_eq_natMinAcc
    · intro k hk
      simp only [List.mem_map] at hk
      obtain ⟨z, hz, rfl⟩ := hk
      have := List.rel_of_pairwise_cons hpw hz
      omega
    · rw [List.pairwise_map]
      have := List.Pairwise.sublist (List.sublist_cons_self y ys) hpw
      exact this.imp (by intro a b h; omega)

/-- Witness for C7: on the two-column matrix with one row `[0, 1]`, both
columns are uncovered with size 1; the scan visits headers 1 then 2, and
the tie is broken by the natural order: column 0 is returned. -/
theorem c7_witness : choose_column 10 mat2r = some (some 0) := by
  have hch : RChain mat2r ((mat2r.nodes.getD (0 : Int).toNat default).right)
      [1, 2] := by
    exact RChain.cons 1 [2] (by decide) (by decide) (by decide)
      (RChain.cons 2 [] (by decide) (by decide) (by decide) RChain.nil)
  have h := @c7_choose_column_rule mat2r [1, 2] (by decide) hch
    (by decide) (by simp [List.chain'_cons]) 10 (by decide)
  rw [h]
  rfl

-- ------------------------------------------------------------------
-- cover/uncover symmetry: the unlink/relink pair
-- ------------------------------------------------------------------

theorem matrix_ext {m1 m2 : DancingLinksMatrix}
    (h1 : m1.num_columns = m2.num_columns) (h2 : m1.nodes = m2.nodes)
    (h3 : m1.columns = m2.columns) : m1 = m2 := by
  cases m1; cases m2
  cases h1; cases h2; cases h3
  rfl

theorem node_ext {a b : DLXNode} (h1 : a.left = b.left)
    (h2 : a.right = b.right) (h3 : a.up = b.up) (h4 : a.down = b.down)
    (h5 : a.column = b.column) (h6 : a.row = b.row) : a = b := by
  cases a; cases b
  cases h1; cases h2; cases h3; cases h4; cases h5; cases h6
  rfl

/-- A write that touches only `up`/`down` preserves the horizontal and
identity fields of every node. -/
theorem getD_set_hpres {l : List DLXNode} {p : Nat} (hp : p < l.length)
    (g : DLXNode → DLXNode)
    (hg : ∀ y, (g y).left = y.left ∧ (g y).right = y.right ∧
      (g y).column = y.column ∧ (g y).row = y.row) (q : Nat) :
    ((l.set p (g (l.getD p default))).getD q default).left =
        (l.getD q default).left ∧
    ((l.set p (g (l.getD p default))).getD q default).right =
        (l.getD q default).right ∧
    ((l.set p (g (l.getD p default))).getD q default).column =
        (l.getD q default).column ∧
    ((l.set p (g (l.getD p default))).getD q default).row =
        (l.getD q default).row := by
  by_cases hq : p = q
  · subst hq
    rw [getD_set_self _ _ hp]
    exact hg _
  · rw [getD_set_ne _ _ hq]
    exact ⟨rfl, rfl, rfl, rfl⟩

/-- The central inversion: for a locally well-formed cell, the `cover`
inner-loop body (`unlinkStep`) succeeds and the `uncover` inner-loop
body (`relinkStep`) applied to its result restores the state exactly;
moreover the unlink touches only the `up`/`down` fields of the cell's
two vertical neighbours and the size of the cell's column. -/
theorem unlink_relink {m : DancingLinksMatrix} {x : Int} (h : CellOK m x) :
    ∃ m1, unlinkStep m x = some m1 ∧ relinkStep m1 x = some m ∧
      m1.nodes.length = m.nodes.length ∧
      m1.columns.length = m.columns.length ∧
      m1.num_columns = m.num_columns ∧
      (∀ q : Nat,
        (m1.nodes.getD q default).left = (m.nodes.getD q default).left ∧
        (m1.nodes.getD q default).right = (m.nodes.getD q default).right ∧
        (m1.nodes.getD q default).column = (m.nodes.getD q default).column ∧
        (m1.nodes.getD q default).row = (m.nodes.getD q default).row) ∧
      (∀ q : Int, 0 ≤ q → q ≠ (m.nodes.getD x.toNat default).up →
        q ≠ (m.nodes.getD x.toNat default).down →
        m1.nodes.getD q.toNat default = m.nodes.getD q.toNat default) ∧
      (∀ q : Nat, q ≠ ((m.nodes.getD x.toNat default).column - 1).toNat →
        m1.columns.getD q default = m.columns.getD q default) := by
  obtain ⟨hx0, hx1, hu0, hu1, hd0, hd1, hux, hdx, huD, hdU, hc0, hc1⟩ := h
  set nd : DLXNode := m.nodes.getD x.toNat default with hnd
  have hpux : nd.up.toNat ≠ x.toNat := by omega
  have hpdx : nd.down.toNat ≠ x.toNat := by omega
  have hpu : nd.up.toNat < m.nodes.length := by omega
  have hpd : nd.down.toNat < m.nodes.length := by omega
  have hpc : (nd.column - 1).toNat < m.columns.length := by omega
  -- unlink chain ------------------------------------------------------
  have hg1 : m.nget x = some nd := by rw [nget_eq hx0 hx1]
  obtain ⟨mA, hmA, hAnodes, hAcols, hAnum⟩ :
      ∃ mA, m.nmod nd.up (fun y => { y with down := nd.down }) = some mA ∧
        mA.nodes = m.nodes.set nd.up.toNat
          { m.nodes.getD nd.up.toNat default with down := nd.down } ∧
        mA.columns = m.columns ∧ mA.num_columns = m.num_columns :=
    ⟨_, nmod_eq _ hu0 hu1, rfl, rfl, rfl⟩
  have hAlen : mA.nodes.length = m.nodes.length := by
    rw [hAnodes, List.length_set]
  have hAx : mA.nodes.getD x.toNat default = nd := by
    rw [hAnodes, getD_set_ne _ _ hpux, hnd]
  have hg2 : mA.nget x = some nd := by
    rw [nget_eq hx0 (by rw [hAlen]; exact hx1), hAx]
  obtain ⟨mB, hmB, hBnodes, hBcols, hBnum⟩ :
      ∃ mB, mA.nmod nd.down (fun y => { y with up := nd.up }) = some mB ∧
        mB.nodes = mA.nodes.set nd.down.toNat
          { mA.nodes.getD nd.down.toNat default with up := nd.up } ∧
        mB.columns = mA.columns ∧ mB.num_columns = mA.num_columns :=
    ⟨_, nmod_eq _ hd0 (by rw [hAlen]; exact hd1), rfl, rfl, rfl⟩
  have hBlen : mB.nodes.length = m.nodes.length := by
    rw [hBnodes, List.length_set, hAlen]
  have hBx : mB.nodes.getD x.toNat default = nd := by
    rw [hBnodes, getD_set_ne _ _ hpdx, hAx]
  have hg3 : mB.nget x = some nd := by
    rw [nget_eq hx0 (by rw [hBlen]; exact hx1), hBx]
  obtain ⟨mC, hmC, hCnodes, hCcols, hCnum⟩ :
      ∃ mC, mB.cmod (nd.column - 1) (fun col => { col with size := col.size - 1 }) = some mC ∧
        mC.nodes = mB.nodes ∧
        mC.columns = mB.columns.set (nd.column - 1).toNat
          { mB.columns.getD (nd.column - 1).toNat default with
            size := (mB.columns.getD (nd.column - 1).toNat default).size - 1 } ∧
        mC.num_columns = mB.num_columns :=
    ⟨_, cmod_eq _ hc0 (by rw [hBcols, hAcols]; exact hc1), rfl, rfl, rfl⟩
  have hCu : unlinkStep m x = some mC := by
    simp only [unlinkStep, hg1, Option.bind_eq_bind, Option.some_bind, hmA,
      hg2, hmB, hg3, hmC]
    rfl
  have hClen : mC.nodes.length = m.nodes.length := by rw [hCnodes, hBlen]
  have hCcl : mC.columns.length = m.columns.length := by
    rw [hCcols, List.length_set, hBcols, hAcols]
  have hCx : mC.nodes.getD x.toNat default = nd := by rw [hCnodes, hBx]
  -- relink chain ------------------------------------------------------
  have hg1' : mC.nget x = some nd := by
    rw [nget_eq hx0 (by rw [hClen]; exact hx1), hCx]
  obtain ⟨mD, hmD, hDnodes, hDcols, hDnum⟩ :
      ∃ mD, mC.nmod nd.up (fun y => { y with down := x }) = some mD ∧
        mD.nodes = mC.nodes.set nd.up.toNat
          { mC.nodes.getD nd.up.toNat default with down := x } ∧
        mD.columns = mC.columns ∧ mD.num_columns = mC.num_columns :=
    ⟨_, nmod_eq _ hu0 (by rw [hClen]; exact hu1), rfl, rfl, rfl⟩
  have hDlen : mD.nodes.length = m.nodes.length := by
    rw [hDnodes, List.length_set, hClen]
  have hDx : mD.nodes.getD x.toNat default = nd := by
    rw [hDnodes, getD_set_ne _ _ hpux, hCx]
  have hg2' : mD.nget x = some nd := by
    rw [nget_eq hx0 (by rw [hDlen]; exact hx1), hDx]
  obtain ⟨mE, hmE, hEnodes, hEcols, hEnum⟩ :
      ∃ mE, mD.nmod nd.down (fun y => { y with up := x }) = some mE ∧
        mE.nodes = mD.nodes.set nd.down.toNat
          { mD.nodes.getD nd.down.toNat default with up := x } ∧
        mE.columns = mD.columns ∧ mE.num_columns = mD.num_columns :=
    ⟨_, nmod_eq _ hd0 (by rw [hDlen]; exact hd1), rfl, rfl, rfl⟩
  have hElen : mE.nodes.length = m.nodes.length := by
    rw [hEnodes, List.length_set, hDlen]
  have hEx : mE.nodes.getD x.toNat default = nd := by
    rw [hEnodes, getD_set_ne _ _ hpdx, hDx]
  have hg3' : mE.nget x = some nd := by
    rw [nget_eq hx0 (by rw [hElen]; exact hx1), hEx]
  have hEcl : mE.columns.length = m.columns.length := by
    rw [hEcols, hDcols, hCcl]
  obtain ⟨mF, hmF, hFnodes, hFcols, hFnum⟩ :
      ∃ mF, mE.cmod (nd.column - 1) (fun col => { col with size := col.size + 1 }) = some mF ∧
        mF.nodes = mE.nodes ∧
        mF.columns = mE.columns.set (nd.column - 1).toNat
          { mE.columns.getD (nd.column - 1).toNat default with
            size := (mE.columns.getD (nd.column - 1).toNat default).size + 1 } ∧
        mF.num_columns = mE.num_columns :=
    ⟨_, cmod_eq _ hc0 (by rw [hEcl]; exact hc1), rfl, rfl, rfl⟩
  have hFr : relinkStep mC x = some mF := by
    simp only [relinkStep, hg1', Option.bind_eq_bind, Option.some_bind, hmD,
      hg2', hmE, hg3', hmF]
    rfl
  -- the restored state is the original one -----------------------------
  have hcolsF : mF.columns = m.columns := by
    rw [hFcols, hEcols, hDcols, hCcols, hBcols, hAcols]
    rw [getD_set_self _ _ hpc]
    have : (m.columns.getD (nd.column - 1).toNat default).size - 1 + 1 =
        (m.columns.getD (nd.column - 1).toNat default).size := by omega
    rw [List.set_set, this]
    exact set_getD_self default
  have hnodesF : mF.nodes = m.nodes := by
    rw [hFnodes, hEnodes, hDnodes, hCnodes, hBnodes, hAnodes]
    by_cases hud : nd.up.toNat = nd.down.toNat
    · -- the cell's two vertical neighbours coincide
      rw [← hud]
      set N := m.nodes with hN
      set A : DLXNode := { N.getD nd.up.toNat default with down := nd.down } with hA
      set L1 : List DLXNode := N.set nd.up.toNat A with hL1
      have e1 : L1.getD nd.up.toNat default = A := by
        rw [hL1]
        exact getD_set_self _ _ hpu
      rw [e1]
      set B : DLXNode := { A with up := nd.up } with hB
      set L2 : List DLXNode := L1.set nd.up.toNat B with hL2
      have e2 : L2.getD nd.up.toNat default = B := by
        rw [hL2]
        refine getD_set_self _ _ ?_
        rw [hL1, List.length_set]
        exact hpu
      rw [e2]
      set D : DLXNode := { B with down := x } with hD
      set L3 : List DLXNode := L2.set nd.up.toNat D with hL3
      have e3 : L3.getD nd.up.toNat default = D := by
        rw [hL3]
        refine getD_set_self _ _ ?_
        rw [hL2, List.length_set, hL1, List.length_set]
        exact hpu
      rw [e3]
      have hEval : ({ D with up := x } : DLXNode) = N.getD nd.up.toNat default := by
        rw [hD, hB, hA]
        refine node_ext rfl rfl ?_ ?_ rfl rfl
        · show x = (N.getD nd.up.toNat default).up
          rw [← hud] at hdU
          exact hdU.symm
        · show x = (N.getD nd.up.toNat default).down
          exact huD.symm
      rw [hEval, hL3, List.set_set, hL2, List.set_set, hL1, List.set_set]
      exact set_getD_self default
    · -- distinct vertical neighbours: the four writes cancel pairwise
      set N := m.nodes with hN
      set A : DLXNode := { N.getD nd.up.toNat default with down := nd.down } with hA
      set L1 : List DLXNode := N.set nd.up.toNat A with hL1
      have e1 : L1.getD nd.down.toNat default = N.getD nd.down.toNat default := by
        rw [hL1]
        exact getD_set_ne _ _ hud
      rw [e1]
      set B : DLXNode := { N.getD nd.down.toNat default with up := nd.up } with hB
      set L2 : List DLXNode := L1.set nd.down.toNat B with hL2
      have e2 : L2.getD nd.up.toNat default = A := by
        rw [hL2, getD_set_ne _ _ (Ne.symm hud), hL1]
        exact getD_set_self _ _ hpu
      rw [e2]
      have hDval : ({ A with down := x } : DLXNode) = N.getD nd.up.toNat default := by
        rw [hA]
        exact node_ext rfl rfl rfl huD.symm rfl rfl
      rw [hDval]
      set L3 : List DLXNode := L2.set nd.up.toNat (N.getD nd.up.toNat default) with hL3
      have e3 : L3.getD nd.down.toNat default = B := by
        rw [hL3, getD_set_ne _ _ hud, hL2]
        refine getD_set_self _ _ ?_
        rw [hL1, List.length_set]
        exact hpd
      rw [e3]
      have hEval : ({ B with up := x } : DLXNode) = N.getD nd.down.toNat default := by
        rw [hB]
        exact node_ext rfl rfl hdU.symm rfl rfl rfl
      rw [hEval, hL3, List.set_comm _ _ _ hud, hL2, List.set_set, hL1,
        List.set_comm _ _ _ hud, List.set_set, set_getD_self, set_getD_self]
  have hFm : mF = m := matrix_ext
    (by rw [hFnum, hEnum, hDnum, hCnum, hBnum, hAnum]) hnodesF hcolsF
  rw [hFm] at hFr
  -- preservation facts -------------------------------------------------
  refine ⟨mC, hCu, hFr, hClen, hCcl, by rw [hCnum, hBnum, hAnum], ?_, ?_, ?_⟩
  · intro q
    have s1 := getD_set_hpres (l := m.nodes) (p := nd.up.toNat) hpu
      (fun y => { y with down := nd.down }) (fun y => ⟨rfl, rfl, rfl, rfl⟩) q
    have s2 := getD_set_hpres
      (l := m.nodes.set nd.up.toNat
        { m.nodes.getD nd.up.toNat default with down := nd.down })
      (p := nd.down.toNat) (by rw [List.length_set]; exact hpd)
      (fun y => { y with up := nd.up }) (fun y => ⟨rfl, rfl, rfl, rfl⟩) q
    rw [hCnodes, hBnodes, hAnodes]
    exact ⟨s2.1.trans s1.1, s2.2.1.trans s1.2.1, s2.2.2.1.trans s1.2.2.1,
      s2.2.2.2.trans s1.2.2.2⟩
  · intro q hq0 hqu hqd
    rw [hCnodes, hBnodes, hAnodes, getD_set_ne _ _ (by omega),
      getD_set_ne _ _ (by omega)]
  · intro q hq
    rw [hCcols, hBcols, hAcols, getD_set_ne _ _ (Ne.symm hq)]

/-- What a whole inner trace leaves untouched: list lengths, every
node's horizontal and identity fields, the protected nodes entirely, and
the covered column's record. -/
theorem innerTrace_pres {prot : List Int} {hIdx row : Int}
    {m : DancingLinksMatrix} {prev cur : Int} {cells : List Int}
    {m2 : DancingLinksMatrix}
    (ht : InnerTrace prot hIdx row m prev cur cells m2) :
    m2.nodes.length = m.nodes.length ∧
    m2.columns.length = m.columns.length ∧
    m2.num_columns = m.num_columns ∧
    (∀ q : Nat,
      (m2.nodes.getD q default).left = (m.nodes.getD q default).left ∧
      (m2.nodes.getD q default).right = (m.nodes.getD q default).right ∧
      (m2.nodes.getD q default).column = (m.nodes.getD q default).column ∧
      (m2.nodes.getD q default).row = (m.nodes.getD q default).row) ∧
    (∀ q : Int, 0 ≤ q → q ∈ prot →
      m2.nodes.getD q.toNat default = m.nodes.getD q.toNat default) ∧
    (0 ≤ hIdx - 1 →
      m2.columns.getD (hIdx - 1).toNat default =
        m.columns.getD (hIdx - 1).toNat default) := by
  induction ht with
  | nil m prev hleft =>
    exact ⟨rfl, rfl, rfl, fun q => ⟨rfl, rfl, rfl, rfl⟩, fun q _ _ => rfl,
      fun _ => rfl⟩
  | cons m prev cur cells m1 m2 hne hcond hleft hunlink htail ih =>
    obtain ⟨hcell, hupP, hdownP, hcolP⟩ := hcond
    obtain ⟨m1', hu', hr', hlen', hclen', hnum', hhoriz', hvert', hcols'⟩ :=
      unlink_relink hcell
    rw [hunlink] at hu'
    cases hu'
    obtain ⟨hcc0, hcc1⟩ : 0 ≤ (m.nodes.getD cur.toNat default).column - 1 ∧
        (m.nodes.getD cur.toNat default).column - 1 < (m.columns.length : Int) :=
      ⟨hcell.2.2.2.2.2.2.2.2.2.2.1, hcell.2.2.2.2.2.2.2.2.2.2.2⟩
    obtain ⟨ihlen, ihclen, ihnum, ihhoriz, ihvert, ihcols⟩ := ih
    refine ⟨ihlen.trans hlen', ihclen.trans hclen', ihnum.trans hnum',
      ?_, ?_, ?_⟩
    · intro q
      obtain ⟨a1, a2, a3, a4⟩ := ihhoriz q
      obtain ⟨b1, b2, b3, b4⟩ := hhoriz' q
      exact ⟨a1.trans b1, a2.trans b2, a3.trans b3, a4.trans b4⟩
    · intro q hq0 hqp
      refine (ihvert q hq0 hqp).trans (hvert' q hq0 ?_ ?_)
      · intro he
        exact hupP (he ▸ hqp)
      · intro he
        exact hdownP (he ▸ hqp)
    · intro hh
      refine (ihcols hh).trans (hcols' (hIdx - 1).toNat ?_)
      omega

/-- The `cover` inner loop follows the trace. -/
theorem innerTrace_cover {prot : List Int} {hIdx row : Int}
    {m : DancingLinksMatrix} {prev cur : Int} {cells : List Int}
    {m2 : DancingLinksMatrix}
    (ht : InnerTrace prot hIdx row m prev cur cells m2) :
    ∀ f ops, coverInner (f + 1 + cells.length) m ops row cur =
      some (m2, ops + cells.length) := by
  induction ht with
  | nil m prev hleft =>
    intro f ops
    show coverInner (f + 1) m ops row row = some (m, ops)
    simp [coverInner]
  | cons m prev cur cells m1 m2 hne hcond hleft hunlink htail ih =>
    intro f ops
    obtain ⟨hcell, _, _, _⟩ := hcond
    have hc0 : 0 ≤ cur := hcell.1
    have hc1 : cur < (m.nodes.length : Int) := hcell.2.1
    obtain ⟨m1', hu', _, hlen', _, _, _, _, _⟩ := unlink_relink hcell
    rw [hunlink] at hu'
    cases hu'
    simp only [List.length_cons]
    have hfe : f + 1 + (cells.length + 1) = (f + 1 + cells.length) + 1 := by
      omega
    rw [hfe]
    simp only [coverInner, if_neg hne, hunlink, Option.bind_eq_bind,
      Option.some_bind]
    rw [nget_eq hc0 (by rw [hlen']; exact hc1)]
    simp only [Option.some_bind]
    rw [ih f (ops + 1)]
    have : ops + 1 + cells.length = ops + (cells.length + 1) := by omega
    rw [this]

/-- The `uncover` inner loop, run on a trace's final state from the
row's left link, undoes the trace's cells in reverse and continues from
the trace's entry point. -/
theorem innerTrace_uncover {prot : List Int} {hIdx row : Int}
    {m : DancingLinksMatrix} {prev cur : Int} {cells : List Int}
    {m2 : DancingLinksMatrix}
    (ht : InnerTrace prot hIdx row m prev cur cells m2) :
    ∀ f ops, uncoverInner (f + cells.length) m2 ops row
        ((m2.nodes.getD row.toNat default).left) =
      uncoverInner f m (ops + cells.length) row prev := by
  induction ht with
  | nil m prev hleft =>
    intro f ops
    rw [hleft]
    simp only [List.length_nil, Nat.add_zero]
  | cons m prev cur cells m1 m2 hne hcond hleft hunlink htail ih =>
    intro f ops
    obtain ⟨hcell, _, _, _⟩ := hcond
    have hc0 : 0 ≤ cur := hcell.1
    have hc1 : cur < (m.nodes.length : Int) := hcell.2.1
    obtain ⟨m1', hu', hr', hlen', _, _, _, _, _⟩ := unlink_relink hcell
    rw [hunlink] at hu'
    cases hu'
    simp only [List.length_cons]
    have heq : f + (cells.length + 1) = (f + 1) + cells.length := by omega
    rw [heq, ih (f + 1) ops]
    simp only [uncoverInner, if_neg hne, hr', Option.bind_eq_bind,
      Option.some_bind]
    rw [nget_eq hc0 hc1]
    simp only [Option.some_bind]
    rw [hleft]
    have : ops + cells.length + 1 = ops + (cells.length + 1) := by omega
    rw [this]

/-- Wrapping up: when a row's inner trace starts at the row node itself,
the `uncover` inner loop fully restores the pre-cover state. -/
theorem innerTrace_undo {prot : List Int} {hIdx row : Int}
    {m : DancingLinksMatrix} {cur : Int} {cells : List Int}
    {m2 : DancingLinksMatrix}
    (ht : InnerTrace prot hIdx row m row cur cells m2) :
    ∀ F ops, cells.length < F →
    uncoverInner F m2 ops row ((m2.nodes.getD row.toNat default).left) =
      some (m, ops + cells.length) := by
  intro F ops hF
  obtain ⟨g, rfl⟩ : ∃ g, F = (g + 1) + cells.length :=
    ⟨F - cells.length - 1, by omega⟩
  rw [innerTrace_uncover ht (g + 1) ops]
  simp [uncoverInner]

/-- Preservation across a whole outer trace. -/
theorem outerTrace_pres {prot : List Int} {hIdx : Int}
    {m : DancingLinksMatrix} {prev cur : Int} {rows : List (Int × List Int)}
    {m2 : DancingLinksMatrix}
    (ht : OuterTrace prot hIdx m prev cur rows m2) :
    m2.nodes.length = m.nodes.length ∧
    m2.columns.length = m.columns.length ∧
    m2.num_columns = m.num_columns ∧
    (∀ q : Nat,
      (m2.nodes.getD q default).left = (m.nodes.getD q default).left ∧
      (m2.nodes.getD q default).right = (m.nodes.getD q default).right ∧
      (m2.nodes.getD q default).column = (m.nodes.getD q default).column ∧
      (m2.nodes.getD q default).row = (m.nodes.getD q default).row) ∧
    (∀ q : Int, 0 ≤ q → q ∈ prot →
      m2.nodes.getD q.toNat default = m.nodes.getD q.toNat default) ∧
    (0 ≤ hIdx - 1 →
      m2.columns.getD (hIdx - 1).toNat default =
        m.columns.getD (hIdx - 1).toNat default) := by
  induction ht with
  | nil m prev hup =>
    exact ⟨rfl, rfl, rfl, fun q => ⟨rfl, rfl, rfl, rfl⟩, fun q _ _ => rfl,
      fun _ => rfl⟩
  | cons m prev cur cells m1 rows m2 hne h0 h1 hmem hup htInner htail ih =>
    obtain ⟨slen, sclen, snum, shoriz, svert, scols⟩ := innerTrace_pres htInner
    obtain ⟨ihlen, ihclen, ihnum, ihhoriz, ihvert, ihcols⟩ := ih
    refine ⟨ihlen.trans slen, ihclen.trans sclen, ihnum.trans snum,
      ?_, ?_, ?_⟩
    · intro q
      obtain ⟨a1, a2, a3, a4⟩ := ihhoriz q
      obtain ⟨b1, b2, b3, b4⟩ := shoriz q
      exact ⟨a1.trans b1, a2.trans b2, a3.trans b3, a4.trans b4⟩
    · intro q hq0 hqp
      exact (ihvert q hq0 hqp).trans (svert q hq0 hqp)
    · intro hh
      exact (ihcols hh).trans (scols hh)

/-- The `cover` outer loop follows the trace. -/
theorem outerTrace_cover {prot : List Int} {hIdx : Int}
    {m : DancingLinksMatrix} {prev cur : Int} {rows : List (Int × List Int)}
    {m2 : DancingLinksMatrix}
    (ht : OuterTrace prot hIdx m prev cur rows m2) :
    ∀ F ops, outerFuel rows ≤ F →
    coverOuter F m ops hIdx cur = some (m2, ops + traceWeight rows) := by
  induction ht with
  | nil m prev hup =>
    intro F ops hF
    have h1 : 1 ≤ F := by simpa [outerFuel] using hF
    obtain ⟨g, rfl⟩ : ∃ g, F = g + 1 := ⟨F - 1, by omega⟩
    simp [coverOuter, traceWeight]
  | cons m prev cur cells m1 rows m2 hne h0 h1 hmem hup htInner htail ih =>
    intro F ops hF
    have hmax1 : cells.length + 1 ≤ max (cells.length + 1) (outerFuel rows) :=
      le_max_left _ _
    have hmax2 : outerFuel rows ≤ max (cells.length + 1) (outerFuel rows) :=
      le_max_right _ _
    have hF' : 1 + max (cells.length + 1) (outerFuel rows) ≤ F := by
      simpa [outerFuel] using hF
    obtain ⟨g, rfl⟩ : ∃ g, F = g + 1 := ⟨F - 1, by omega⟩
    obtain ⟨slen, _, _, _, _, _⟩ := innerTrace_pres htInner
    simp only [coverOuter, if_neg hne]
    rw [nget_eq h0 h1]
    simp only [Option.bind_eq_bind, Option.some_bind]
    have hci := innerTrace_cover htInner (g - cells.length - 1) ops
    have hg : (g - cells.length - 1) + 1 + cells.length = g := by omega
    rw [hg] at hci
    rw [hci]
    simp only [Option.some_bind]
    rw [nget_eq h0 (by rw [slen]; exact h1)]
    simp only [Option.some_bind]
    rw [ih g (ops + cells.length) (by omega)]
    have : ops + cells.length + traceWeight rows =
        ops + traceWeight ((cur, cells) :: rows) := by
      simp [traceWeight]
      omega
    rw [this]

/-- The `uncover` outer loop, run on a trace's final state from the
header's up link, undoes the trace's rows in reverse and continues from
the trace's entry point. -/
theorem outerTrace_uncover {prot : List Int} {hIdx : Int}
    {m : DancingLinksMatrix} {prev cur : Int} {rows : List (Int × List Int)}
    {m2 : DancingLinksMatrix}
    (ht : OuterTrace prot hIdx m prev cur rows m2) :
    ∀ f ops, (∀ rc ∈ rows, rc.2.length + 1 ≤ f) →
    uncoverOuter (f + rows.length) m2 ops hIdx
        ((m2.nodes.getD hIdx.toNat default).up) =
      uncoverOuter f m (ops + traceWeight rows) hIdx prev := by
  induction ht with
  | nil m prev hup =>
    intro f ops _
    rw [hup]
    simp only [List.length_nil, Nat.add_zero, traceWeight]
  | cons m prev cur cells m1 rows m2 hne h0 h1 hmem hup htInner htail ih =>
    intro f ops hf
    obtain ⟨slen, _, _, _, _, _⟩ := innerTrace_pres htInner
    simp only [List.length_cons]
    have heq : f + (rows.length + 1) = (f + 1) + rows.length := by omega
    rw [heq, ih (f + 1) ops (fun rc hrc => by
      have := hf rc (List.mem_cons_of_mem _ hrc)
      omega)]
    simp only [uncoverOuter, if_neg hne]
    rw [nget_eq h0 (by rw [slen]; exact h1)]
    simp only [Option.bind_eq_bind, Option.some_bind]
    rw [innerTrace_undo htInner f _ (by
      have := hf (cur, cells) (by simp)
      simpa using this)]
    simp only [Option.some_bind]
    rw [nget_eq h0 h1]
    simp only [Option.some_bind]
    rw [hup]
    have : ops + traceWeight rows + cells.length =
        ops + traceWeight ((cur, cells) :: rows) := by
      simp [traceWeight]
      omega
    rw [this]

/-- A write that touches only `left`/`right` preserves the vertical and
identity fields of every node. -/
theorem getD_set_vpres {l : List DLXNode} {p : Nat} (hp : p < l.length)
    (g : DLXNode → DLXNode)
    (hg : ∀ y, (g y).up = y.up ∧ (g y).down = y.down ∧
      (g y).column = y.column ∧ (g y).row = y.row) (q : Nat) :
    ((l.set p (g (l.getD p default))).getD q default).up =
        (l.getD q default).up ∧
    ((l.set p (g (l.getD p default))).getD q default).down =
        (l.getD q default).down ∧
    ((l.set p (g (l.getD p default))).getD q default).column =
        (l.getD q default).column ∧
    ((l.set p (g (l.getD p default))).getD q default).row =
        (l.getD q default).row := by
  by_cases hpq : p = q
  · subst hpq
    rw [getD_set_self _ _ hp]
    exact hg _
  · rw [getD_set_ne _ _ hpq]
    exact ⟨rfl, rfl, rfl, rfl⟩

/-- Unlinking the chosen column's header from the horizontal header
list, followed by the mirror relinking, restores the state exactly;
the unlink touches only the `right` field of the left neighbour and the
`left` field of the right neighbour. -/
theorem hdr_pair {m : DancingLinksMatrix} {h : Int}
    (hh0 : 0 ≤ h) (hh1 : h < (m.nodes.length : Int))
    (hL0 : 0 ≤ (m.nodes.getD h.toNat default).left)
    (hL1 : (m.nodes.getD h.toNat default).left < (m.nodes.length : Int))
    (hR0 : 0 ≤ (m.nodes.getD h.toNat default).right)
    (hR1 : (m.nodes.getD h.toNat default).right < (m.nodes.length : Int))
    (hLh : (m.nodes.getD h.toNat default).left ≠ h)
    (hRh : (m.nodes.getD h.toNat default).right ≠ h)
    (hLr : (m.nodes.getD (m.nodes.getD h.toNat default).left.toNat default).right = h)
    (hRl : (m.nodes.getD (m.nodes.getD h.toNat default).right.toNat default).left = h) :
    ∃ m', hdrUnlink m h = some m' ∧ hdrRelink m' h = some m ∧
      m'.nodes.length = m.nodes.length ∧ m'.columns = m.columns ∧
      m'.num_columns = m.num_columns ∧
      (∀ q : Nat,
        (m'.nodes.getD q default).up = (m.nodes.getD q default).up ∧
        (m'.nodes.getD q default).down = (m.nodes.getD q default).down ∧
        (m'.nodes.getD q default).column = (m.nodes.getD q default).column ∧
        (m'.nodes.getD q default).row = (m.nodes.getD q default).row) ∧
      (∀ q : Nat, q ≠ (m.nodes.getD h.toNat default).left.toNat →
        q ≠ (m.nodes.getD h.toNat default).right.toNat →
        m'.nodes.getD q default = m.nodes.getD q default) ∧
      m'.nodes.getD h.toNat default = m.nodes.getD h.toNat default := by
  set nd : DLXNode := m.nodes.getD h.toNat default with hnd
  have hpLh : nd.left.toNat ≠ h.toNat := by omega
  have hpRh : nd.right.toNat ≠ h.toNat := by omega
  have hpL : nd.left.toNat < m.nodes.length := by omega
  have hpR : nd.right.toNat < m.nodes.length := by omega
  have hg1 : m.nget h = some nd := by rw [nget_eq hh0 hh1]
  obtain ⟨mA, hmA, hAnodes, hAcols, hAnum⟩ :
      ∃ mA, m.nmod nd.left (fun y => { y with right := nd.right }) = some mA ∧
        mA.nodes = m.nodes.set nd.left.toNat
          { m.nodes.getD nd.left.toNat default with right := nd.right } ∧
        mA.columns = m.columns ∧ mA.num_columns = m.num_columns :=
    ⟨_, nmod_eq _ hL0 hL1, rfl, rfl, rfl⟩
  have hAlen : mA.nodes.length = m.nodes.length := by
    rw [hAnodes, List.length_set]
  have hAh : mA.nodes.getD h.toNat default = nd := by
    rw [hAnodes, getD_set_ne _ _ hpLh, hnd]
  have hg2 : mA.nget h = some nd := by
    rw [nget_eq hh0 (by rw [hAlen]; exact hh1), hAh]
  obtain ⟨mB, hmB, hBnodes, hBcols, hBnum⟩ :
      ∃ mB, mA.nmod nd.right (fun y => { y with left := nd.left }) = some mB ∧
        mB.nodes = mA.nodes.set nd.right.toNat
          { mA.nodes.getD nd.right.toNat default with left := nd.left } ∧
        mB.columns = mA.columns ∧ mB.num_columns = mA.num_columns :=
    ⟨_, nmod_eq _ hR0 (by rw [hAlen]; exact hR1), rfl, rfl, rfl⟩
  have hBlen : mB.nodes.length = m.nodes.length := by
    rw [hBnodes, List.length_set, hAlen]
  have hBh : mB.nodes.getD h.toNat default = nd := by
    rw [hBnodes, getD_set_ne _ _ hpRh, hAh]
  have hBu : hdrUnlink m h = some mB := by
    simp only [hdrUnlink, hg1, Option.bind_eq_bind, Option.some_bind, hmA,
      hg2, hmB]
    rfl
  -- relink
  have hg1' : mB.nget h = some nd := by
    rw [nget_eq hh0 (by rw [hBlen]; exact hh1), hBh]
  obtain ⟨mC, hmC, hCnodes, hCcols, hCnum⟩ :
      ∃ mC, mB.nmod nd.left (fun y => { y with right := h }) = some mC ∧
        mC.nodes = mB.nodes.set nd.left.toNat
          { mB.nodes.getD nd.left.toNat default with right := h } ∧
        mC.columns = mB.columns ∧ mC.num_columns = mB.num_columns :=
    ⟨_, nmod_eq _ hL0 (by rw [hBlen]; exact hL1), rfl, rfl, rfl⟩
  have hClen : mC.nodes.length = m.nodes.length := by
    rw [hCnodes, List.length_set, hBlen]
  have hCh : mC.nodes.getD h.toNat default = nd := by
    rw [hCnodes, getD_set_ne _ _ hpLh, hBh]
  have hg2' : mC.nget h = some nd := by
    rw [nget_eq hh0 (by rw [hClen]; exact hh1), hCh]
  obtain ⟨mD, hmD, hDnodes, hDcols, hDnum⟩ :
      ∃ mD, mC.nmod nd.right (fun y => { y with left := h }) = some mD ∧
        mD.nodes = mC.nodes.set nd.right.toNat
          { mC.nodes.getD nd.right.toNat default with left := h } ∧
        mD.columns = mC.columns ∧ mD.num_columns = mC.num_columns :=
    ⟨_, nmod_eq _ hR0 (by rw [hClen]; exact hR1), rfl, rfl, rfl⟩
  have hDr : hdrRelink mB h = some mD := by
    simp only [hdrRelink, hg1', Option.bind_eq_bind, Option.some_bind, hmC,
      hg2', hmD]
    rfl
  -- the relinked state is the original one
  have hnodesD : mD.nodes = m.nodes := by
    rw [hDnodes, hCnodes, hBnodes, hAnodes]
    by_cases hLR : nd.left.toNat = nd.right.toNat
    · rw [← hLR]
      set N := m.nodes with hN
      set A : DLXNode := { N.getD nd.left.toNat default with right := nd.right } with hA
      set L1 : List DLXNode := N.set nd.left.toNat A with hL1
      have e1 : L1.getD nd.left.toNat default = A := by
        rw [hL1]
        exact getD_set_self _ _ hpL
      rw [e1]
      set B : DLXNode := { A with left := nd.left } with hB
      set L2 : List DLXNode := L1.set nd.left.toNat B with hL2
      have e2 : L2.getD nd.left.toNat default = B := by
        rw [hL2]
        refine getD_set_self _ _ ?_
        rw [hL1, List.length_set]
        exact hpL
      rw [e2]
      set D : DLXNode := { B with right := h } with hD
      set L3 : List DLXNode := L2.set nd.left.toNat D with hL3
      have e3 : L3.getD nd.left.toNat default = D := by
        rw [hL3]
        refine getD_set_self _ _ ?_
        rw [hL2, List.length_set, hL1, List.length_set]
        exact hpL
      rw [e3]
      have hEval : ({ D with left := h } : DLXNode) = N.getD nd.left.toNat default := by
        rw [hD, hB, hA]
        refine node_ext ?_ ?_ rfl rfl rfl rfl
        · show h = (N.getD nd.left.toNat default).left
          rw [← hLR] at hRl
          exact hRl.symm
        · show h = (N.getD nd.left.toNat default).right
          exact hLr.symm
      rw [hEval, hL3, List.set_set, hL2, List.set_set, hL1, List.set_set]
      exact set_getD_self default
    · set N := m.nodes with hN
      set A : DLXNode := { N.getD nd.left.toNat default with right := nd.right } with hA
      set L1 : List DLXNode := N.set nd.left.toNat A with hL1
      have e1 : L1.getD nd.right.toNat default = N.getD nd.right.toNat default := by
        rw [hL1]
        exact getD_set_ne _ _ hLR
      rw [e1]
      set B : DLXNode := { N.getD nd.right.toNat default with left := nd.left } with hB
      set L2 : List DLXNode := L1.set nd.right.toNat B with hL2
      have e2 : L2.getD nd.left.toNat default = A := by
        rw [hL2, getD_set_ne _ _ (Ne.symm hLR), hL1]
        exact getD_set_self _ _ hpL
      rw [e2]
      have hDval : ({ A with right := h } : DLXNode) = N.getD nd.left.toNat default := by
        rw [hA]
        exact node_ext rfl hLr.symm rfl rfl rfl rfl
      rw [hDval]
      set L3 : List DLXNode := L2.set nd.left.toNat (N.getD nd.left.toNat default) with hL3
      have e3 : L3.getD nd.right.toNat default = B := by
        rw [hL3, getD_set_ne _ _ hLR, hL2]
        refine getD_set_self _ _ ?_
        rw [hL1, List.length_set]
        exact hpR
      rw [e3]
      have hEval : ({ B with left := h } : DLXNode) = N.getD nd.right.toNat default := by
        rw [hB]
        exact node_ext hRl.symm rfl rfl rfl rfl rfl
      rw [hEval, hL3, hL2, List.set_comm _ _ _ (Ne.symm hLR), List.set_set,
        hL1, List.set_set, set_getD_self, set_getD_self]
  have hDm : mD = m := matrix_ext
    (by rw [hDnum, hCnum, hBnum, hAnum])
    hnodesD
    (by rw [hDcols, hCcols, hBcols, hAcols])
  rw [hDm] at hDr
  refine ⟨mB, hBu, hDr, hBlen, by rw [hBcols, hAcols],
    by rw [hBnum, hAnum], ?_, ?_, hBh⟩
  · intro q
    have s1 := getD_set_vpres (l := m.nodes) (p := nd.left.toNat) hpL
      (fun y => { y with right := nd.right }) (fun y => ⟨rfl, rfl, rfl, rfl⟩) q
    have s2 := getD_set_vpres
      (l := m.nodes.set nd.left.toNat
        { m.nodes.getD nd.left.toNat default with right := nd.right })
      (p := nd.right.toNat) (by rw [List.length_set]; exact hpR)
      (fun y => { y with left := nd.left }) (fun y => ⟨rfl, rfl, rfl, rfl⟩) q
    rw [hBnodes, hAnodes]
    exact ⟨s2.1.trans s1.1, s2.2.1.trans s1.2.1, s2.2.2.1.trans s1.2.2.1,
      s2.2.2.2.trans s1.2.2.2⟩
  · intro q hqL hqR
    rw [hBnodes, getD_set_ne _ _ (Ne.symm hqR), hAnodes,
      getD_set_ne _ _ (Ne.symm hqL)]

/-- A uniform per-row bound dominates the fuel a trace needs. -/
theorem outerFuel_le {rows : List (Int × List Int)} {f : Nat} (h1 : 1 ≤ f)
    (h2 : ∀ rc ∈ rows, rc.2.length + 1 ≤ f) :
    outerFuel rows ≤ rows.length + f := by
  induction rows with
  | nil => simpa [outerFuel] using h1
  | cons rc rest ih =>
    obtain ⟨r, cs⟩ := rc
    simp only [outerFuel, List.length_cons]
    have ha := h2 (r, cs) (by simp)
    have hb : outerFuel rest ≤ rest.length + f :=
      ih (fun x hx => h2 x (List.mem_cons_of_mem _ hx))
    simp only at ha
    have hm : max (cs.length + 1) (outerFuel rest) ≤ rest.length + f :=
      max_le (by omega) hb
    omega

/-- Running `cover` along a recorded outer trace: the call succeeds,
the matrix ends in the trace's final state, and the operation counter
advances by one (the entry increment) plus one per unlinked cell. -/
theorem cover_run {s : DLXSolver} {c : Int} {prot : List Int}
    {rows : List (Int × List Int)} {mB m2 : DancingLinksMatrix}
    (hc0 : 0 ≤ c) (hc1 : c < (s.matrix.columns.length : Int))
    (hh1 : c + 1 < (s.matrix.nodes.length : Int))
    (hu : hdrUnlink s.matrix (c + 1) = some mB)
    (hBlen : mB.nodes.length = s.matrix.nodes.length)
    (hBh : mB.nodes.getD (c + 1).toNat default =
      s.matrix.nodes.getD (c + 1).toNat default)
    (ht : OuterTrace prot (c + 1) mB (c + 1)
        ((mB.nodes.getD (c + 1).toNat default).down) rows m2)
    {F : Nat} (hF : outerFuel rows ≤ F) :
    DLXSolver.cover F s c = some
      { s with matrix := m2,
               operations := s.operations + 1 + traceWeight rows } := by
  have hh0 : (0 : Int) ≤ c + 1 := by omega
  have hcov := outerTrace_cover ht F (s.operations + 1) hF
  rw [hBh] at hcov
  have hngetB : mB.nget (c + 1) =
      some (s.matrix.nodes.getD (c + 1).toNat default) := by
    rw [nget_eq hh0 (by rw [hBlen]; exact hh1), hBh]
  simp only [DLXSolver.cover, Option.bind_eq_bind]
  rw [cget_eq hc0 hc1]
  simp only [Option.some_bind]
  rw [nget_eq hh0 hh1]
  simp only [Option.some_bind]
  rw [hu]
  simp only [Option.some_bind]
  rw [hngetB]
  simp only [Option.some_bind]
  rw [hcov]
  simp only [Option.some_bind]
  rfl

/-- The single-row outer trace of `cover(0)` on `mat2r`: the chosen
column's one cell is node 3, whose row holds the one other node 4;
nodes 1 (the header) and 3 are the protected set. -/
theorem mat2r_cover_trace :
    OuterTrace [1, 3] 1 mat2rHdr 1 3 [(3, [4])] mat2rCov := by
  refine OuterTrace.cons mat2rHdr 1 3 [4] mat2rCov [] mat2rCov (by decide)
    (by decide) (by decide) (by decide) (by decide) ?_ ?_
  · refine InnerTrace.cons mat2rHdr 3 4 [] mat2rCov mat2rCov (by decide) ?_
      (by decide) (by decide) ?_
    · exact ⟨⟨by decide, by decide, by decide, by decide, by decide, by decide,
        by decide, by decide, by decide, by decide, by decide, by decide⟩,
        by decide, by decide, by decide⟩
    · exact InnerTrace.nil mat2rCov 4 (by decide)
  · exact OuterTrace.nil mat2rCov 3 (by decide)

/-- **C5**: on a state whose chosen column header is properly doubly
linked into the header list and whose `cover(c)` run follows a recorded
traversal of locally well-linked cells (the situation in every
reachable state), `cover(c)` immediately followed by `uncover(c)`
returns the matrix to exactly its pre-cover value: every node link and
every column size is restored. -/
theorem c5_cover_uncover_inverse
    {s : DLXSolver} {c : Int} {prot : List Int}
    {rows : List (Int × List Int)} {mB m2 : DancingLinksMatrix} (f : Nat)
    (hc0 : 0 ≤ c) (hc1 : c < (s.matrix.columns.length : Int))
    (hh1 : c + 1 < (s.matrix.nodes.length : Int))
    (hL0 : 0 ≤ (s.matrix.nodes.getD (c + 1).toNat default).left)
    (hL1 : (s.matrix.nodes.getD (c + 1).toNat default).left <
      (s.matrix.nodes.length : Int))
    (hR0 : 0 ≤ (s.matrix.nodes.getD (c + 1).toNat default).right)
    (hR1 : (s.matrix.nodes.getD (c + 1).toNat default).right <
      (s.matrix.nodes.length : Int))
    (hLh : (s.matrix.nodes.getD (c + 1).toNat default).left ≠ c + 1)
    (hRh : (s.matrix.nodes.getD (c + 1).toNat default).right ≠ c + 1)
    (hLr : (s.matrix.nodes.getD
      (s.matrix.nodes.getD (c + 1).toNat default).left.toNat
        default).right = c + 1)
    (hRl : (s.matrix.nodes.getD
      (s.matrix.nodes.getD (c + 1).toNat default).right.toNat
        default).left = c + 1)
    (hu : hdrUnlink s.matrix (c + 1) = some mB)
    (ht : OuterTrace prot (c + 1) mB (c + 1)
        ((mB.nodes.getD (c + 1).toNat default).down) rows m2)
    (hf1 : 1 ≤ f)
    (hf2 : ∀ rc ∈ rows, rc.2.length + 1 ≤ f) :
    ((DLXSolver.cover (f + rows.length) s c).bind
        (fun t => DLXSolver.uncover (f + rows.length) t c)).map
      DLXSolver.matrix = some s.matrix := by
  have hh0 : (0 : Int) ≤ c + 1 := by omega
  obtain ⟨mB', huB, hrB, hBlen, hBcols, hBnum, hBvert, hBoff, hBh⟩ :=
    hdr_pair hh0 hh1 hL0 hL1 hR0 hR1 hLh hRh hLr hRl
  have hBeq : mB = mB' := Option.some.inj (hu.symm.trans huB)
  subst hBeq
  have hok : outerFuel rows ≤ f + rows.length := by
    have hl := outerFuel_le hf1 hf2
    omega
  have hcovS := cover_run hc0 hc1 hh1 hu hBlen hBh ht hok
  rw [hcovS]
  simp only [Option.bind_eq_bind, Option.some_bind]
  obtain ⟨hOlen, hOclen, hOnum, hOhoriz, hOvert, hOcol⟩ := outerTrace_pres ht
  have hm2len : m2.nodes.length = s.matrix.nodes.length := by
    rw [hOlen, hBlen]
  have hm2clen : m2.columns.length = s.matrix.columns.length := by
    rw [hOclen, hBcols]
  have hunc := outerTrace_uncover ht f
    (s.operations + 1 + traceWeight rows + 1) hf2
  obtain ⟨g, rfl⟩ : ∃ g, f = g + 1 := ⟨f - 1, by omega⟩
  have hstop : ∀ o : Nat,
      uncoverOuter (g + 1) mB o (c + 1) (c + 1) = some (mB, o) := by
    intro o
    simp [uncoverOuter]
  simp only [DLXSolver.uncover, Option.bind_eq_bind]
  rw [cget_eq hc0 (by rw [hm2clen]; exact hc1)]
  simp only [Option.some_bind]
  rw [nget_eq hh0 (by rw [hm2len]; exact hh1)]
  simp only [Option.some_bind]
  rw [hunc, hstop]
  simp only [Option.some_bind]
  rw [hrB]
  simp only [Option.some_bind]
  rfl

/-- Witness for C5: on the two-column matrix with the single row
`[0, 1]`, `cover(0)` followed by `uncover(0)` (fuel 3 suffices) hands
back exactly the original matrix. -/
theorem c5_witness :
    ((DLXSolver.cover 3 (mkSolver mat2r) 0).bind
        (fun t => DLXSolver.uncover 3 t 0)).map
      DLXSolver.matrix = some (mkSolver mat2r).matrix := by
  have hu : hdrUnlink (mkSolver mat2r).matrix ((0 : Int) + 1) =
      some mat2rHdr := by decide
  exact c5_cover_uncover_inverse 2 (by decide) (by decide) (by decide)
    (by decide) (by decide) (by decide) (by decide) (by decide) (by decide)
    (by decide) (by decide) hu mat2r_cover_trace (by decide) (by decide)

/-- **C9**: `cover(c)` leaves the chosen column's own state untouched —
its size field, the `up`/`down` links of its header and row nodes (the
protected set `prot`), and its header node's `left`/`right` fields are
unchanged — and the only horizontal links it mutates are those of the
header's two neighbours; no node's `column`/`row` identity fields
change. -/
theorem c9_cover_frames_chosen_column
    {s : DLXSolver} {c : Int} {prot : List Int}
    {rows : List (Int × List Int)} {mB m2 : DancingLinksMatrix} {F : Nat}
    (hc0 : 0 ≤ c) (hc1 : c < (s.matrix.columns.length : Int))
    (hh1 : c + 1 < (s.matrix.nodes.length : Int))
    (hL0 : 0 ≤ (s.matrix.nodes.getD (c + 1).toNat default).left)
    (hL1 : (s.matrix.nodes.getD (c + 1).toNat default).left <
      (s.matrix.nodes.length : Int))
    (hR0 : 0 ≤ (s.matrix.nodes.getD (c + 1).toNat default).right)
    (hR1 : (s.matrix.nodes.getD (c + 1).toNat default).right <
      (s.matrix.nodes.length : Int))
    (hLh : (s.matrix.nodes.getD (c + 1).toNat default).left ≠ c + 1)
    (hRh : (s.matrix.nodes.getD (c + 1).toNat default).right ≠ c + 1)
    (hLr : (s.matrix.nodes.getD
      (s.matrix.nodes.getD (c + 1).toNat default).left.toNat
        default).right = c + 1)
    (hRl : (s.matrix.nodes.getD
      (s.matrix.nodes.getD (c + 1).toNat default).right.toNat
        default).left = c + 1)
    (hu : hdrUnlink s.matrix (c + 1) = some mB)
    (ht : OuterTrace prot (c + 1) mB (c + 1)
        ((mB.nodes.getD (c + 1).toNat default).down) rows m2)
    (hprot : ∀ p ∈ prot, 0 ≤ p)
    (hF : outerFuel rows ≤ F) :
    ∃ t, DLXSolver.cover F s c = some t ∧
      colObs t.matrix c prot = colObs s.matrix c prot ∧
      t.matrix.nodes.length = s.matrix.nodes.length ∧
      t.matrix.columns.length = s.matrix.columns.length ∧
      (∀ q : Nat,
        (t.matrix.nodes.getD q default).column =
          (s.matrix.nodes.getD q default).column ∧
        (t.matrix.nodes.getD q default).row =
          (s.matrix.nodes.getD q default).row) ∧
      (∀ q : Nat,
        q ≠ (s.matrix.nodes.getD (c + 1).toNat default).left.toNat →
        q ≠ (s.matrix.nodes.getD (c + 1).toNat default).right.toNat →
        (t.matrix.nodes.getD q default).left =
          (s.matrix.nodes.getD q default).left ∧
        (t.matrix.nodes.getD q default).right =
          (s.matrix.nodes.getD q default).right) := by
  have hh0 : (0 : Int) ≤ c + 1 := by omega
  obtain ⟨mB', huB, hrB, hBlen, hBcols, hBnum, hBvert, hBoff, hBh⟩ :=
    hdr_pair hh0 hh1 hL0 hL1 hR0 hR1 hLh hRh hLr hRl
  have hBeq : mB = mB' := Option.some.inj (hu.symm.trans huB)
  subst hBeq
  obtain ⟨hOlen, hOclen, hOnum, hOhoriz, hOvert, hOcol⟩ := outerTrace_pres ht
  refine ⟨_, cover_run hc0 hc1 hh1 hu hBlen hBh ht hF, ?_, ?_, ?_, ?_, ?_⟩
  · show colObs m2 c prot = colObs s.matrix c prot
    simp only [colObs, Prod.mk.injEq]
    refine ⟨?_, ?_, ?_, ?_⟩
    · have hc1i : (c + 1 - 1 : Int) = c := by omega
      have h1 := hOcol (by omega)
      rw [hc1i] at h1
      unfold sizeAt
      rw [h1, hBcols]
    · refine List.map_congr_left ?_
      intro p hp
      have h2 := hOvert p (hprot p hp) hp
      have h3 := hBvert p.toNat
      rw [h2, h3.1, h3.2.1]
    · have h4 := (hOhoriz (c + 1).toNat).1
      rw [h4, hBh]
    · have h5 := (hOhoriz (c + 1).toNat).2.1
      rw [h5, hBh]
  · show m2.nodes.length = s.matrix.nodes.length
    rw [hOlen, hBlen]
  · show m2.columns.length = s.matrix.columns.length
    rw [hOclen, hBcols]
  · intro q
    exact ⟨(hOhoriz q).2.2.1.trans (hBvert q).2.2.1,
      (hOhoriz q).2.2.2.trans (hBvert q).2.2.2⟩
  · intro q hqL hqR
    exact ⟨(hOhoriz q).1.trans (congrArg DLXNode.left (hBoff q hqL hqR)),
      (hOhoriz q).2.1.trans (congrArg DLXNode.right (hBoff q hqL hqR))⟩

/-- Witness for C9: on the two-column matrix with the single row
`[0, 1]`, `cover(0)` at fuel 3 succeeds and leaves column 0's size, the
vertical links of its header (node 1) and cell (node 3), and the
header's horizontal fields unchanged; the only horizontal links it
touches are at the header's neighbours, nodes 0 and 2. -/
theorem c9_witness :
    ∃ t, DLXSolver.cover 3 (mkSolver mat2r) 0 = some t ∧
      colObs t.matrix 0 [1, 3] = colObs (mkSolver mat2r).matrix 0 [1, 3] ∧
      t.matrix.nodes.length = (mkSolver mat2r).matrix.nodes.length ∧
      t.matrix.columns.length = (mkSolver mat2r).matrix.columns.length ∧
      (∀ q : Nat,
        (t.matrix.nodes.getD q default).column =
          ((mkSolver mat2r).matrix.nodes.getD q default).column ∧
        (t.matrix.nodes.getD q default).row =
          ((mkSolver mat2r).matrix.nodes.getD q default).row) ∧
      (∀ q : Nat, q ≠ 0 → q ≠ 2 →
        (t.matrix.nodes.getD q default).left =
          ((mkSolver mat2r).matrix.nodes.getD q default).left ∧
        (t.matrix.nodes.getD q default).right =
          ((mkSolver mat2r).matrix.nodes.getD q default).right) := by
  have hu : hdrUnlink (mkSolver mat2r).matrix ((0 : Int) + 1) =
      some mat2rHdr := by decide
  exact c9_cover_frames_chosen_column (by decide) (by decide) (by decide)
    (by decide) (by decide) (by decide) (by decide) (by decide) (by decide)
    (by decide) (by decide) hu mat2r_cover_trace (by decide) (by decide)

end DLX
